import Mathlib

/-!
# A verification model of the tbl-js in-memory data-table library

This file gives a shallow embedding, in Lean 4, of the core of the tbl-js
repository (an in-memory relational data-table library written in JavaScript):
`DataColumn`, `DataRow` (src/DataRow.js), `DataColumnCollection`,
`DataRowCollection`, `DataTable` (src/DataTable.js), `DataRelation`, `DataSet`
(src/DataSet.js) and `DataView` (src/DataView.js), together with proofs about
the embedded operations.

Modelling conventions:

* JavaScript values that flow through the table are modelled by `JsValue`:
  `null`, `undefined`, finite numbers (as rationals), strings, booleans and
  `Date` objects (carried as an integer timestamp).  Floating-point rounding,
  `NaN`/`Infinity` as *stored* numbers, hexadecimal and exponent string forms
  are outside the modelled value domain; a failed numeric conversion
  (JavaScript `NaN`) is modelled by `Option.none` in the coercion functions.
* `Date.parse` is implementation-defined in JavaScript; it is modelled by a
  strict `YYYY-MM-DD` recogniser producing an order-preserving integer code.
* JavaScript objects live on a heap; object identity (reference equality,
  aliasing) is modelled by an explicit heap of row cells with natural-number
  addresses, because several of the properties below are about aliasing.
* Thrown JavaScript errors are modelled by `Except JsError`.  In every
  modelled operation the source throws before any state mutation, so a
  failing operation leaves the modelled state unchanged exactly as in the
  source.
-/

/-- A JavaScript value as used by the library: `null`, `undefined`, a finite
number (modelled as a rational), a string, a boolean, or a `Date` object
carried as its millisecond timestamp. -/
inductive JsValue where
  | null : JsValue
  | undef : JsValue
  | num (q : ℚ) : JsValue
  | str (s : String) : JsValue
  | bool (b : Bool) : JsValue
  | date (ms : Int) : JsValue
deriving DecidableEq, Repr

/-- Numeric value of a decimal digit string (caller checks all are digits). -/
def natOfDigits (cs : List Char) : Nat :=
  cs.foldl (fun acc c => acc * 10 + (c.toNat - 48)) 0

/-- Parse an unsigned decimal number (digits, digits.digits, .digits, digits.)
into a rational, the exact value a JavaScript decimal literal denotes (before
float rounding). -/
def parseUnsignedDecimal (cs : List Char) : Option ℚ :=
  match cs.splitOn '.' with
  | [ip] =>
      if ip ≠ [] ∧ ip.all (·.isDigit) then some ((natOfDigits ip : ℚ)) else none
  | [ip, fp] =>
      if (ip ≠ [] ∨ fp ≠ []) ∧ ip.all (·.isDigit) ∧ fp.all (·.isDigit) then
        some ((natOfDigits ip : ℚ) + (natOfDigits fp : ℚ) / ((10 : ℚ) ^ fp.length))
      else none
  | _ => none

/-- Strip leading and trailing whitespace from a character list (the model of
the string trimming `Number()` performs). -/
def trimChars (cs : List Char) : List Char :=
  ((cs.dropWhile Char.isWhitespace).reverse.dropWhile Char.isWhitespace).reverse

/-- Model of JavaScript `Number(string)`: trimmed empty string is `0`,
otherwise an optionally signed decimal numeral; anything else is `NaN`
(`none`).  Hexadecimal, exponent and `Infinity` forms are outside the
modelled domain and count as `NaN`. -/
def jsStringToNumber (s : String) : Option ℚ :=
  let t := trimChars s.data
  if t.isEmpty then some 0 else
  match t with
  | '-' :: rest => (parseUnsignedDecimal rest).map (fun q => -q)
  | '+' :: rest => parseUnsignedDecimal rest
  | cs => parseUnsignedDecimal cs

/-- Model of JavaScript `Number(value)`; `none` means `NaN`. -/
def jsToNumber : JsValue → Option ℚ
  | .null => some 0
  | .undef => none
  | .num q => some q
  | .str s => jsStringToNumber s
  | .bool b => some (if b then 1 else 0)
  | .date ms => some (ms : ℚ)

/-- String form of a JavaScript number (exact for integers, which is all the
claims exercise). -/
def jsNumToString (q : ℚ) : String :=
  if q.den = 1 then toString q.num else toString q

/-- Model of JavaScript `String(value)`. -/
def jsToString : JsValue → String
  | .null => "null"
  | .undef => "undefined"
  | .num q => jsNumToString q
  | .str s => s
  | .bool b => if b then "true" else "false"
  | .date ms => String.append "Date " (toString ms)

/-- Model of JavaScript `Boolean(value)` (truthiness). -/
def jsToBool : JsValue → Bool
  | .null => false
  | .undef => false
  | .num q => decide (q ≠ 0)
  | .str s => ! s.isEmpty
  | .bool b => b
  | .date _ => true

/-- Strict `YYYY-MM-DD` recogniser standing in for the implementation-defined
`Date.parse` string grammar; the produced integer is an order-preserving code
of the date. -/
def isoDateParse (s : String) : Option Int :=
  match s.data.splitOn '-' with
  | [y, m, d] =>
      if y.length = 4 ∧ m.length = 2 ∧ d.length = 2 ∧ (y ++ m ++ d).all (·.isDigit) then
        let mv := natOfDigits m
        let dv := natOfDigits d
        if 1 ≤ mv ∧ mv ≤ 12 ∧ 1 ≤ dv ∧ dv ≤ 31 then
          some (((natOfDigits y) * 10000 + mv * 100 + dv : Nat) : Int)
        else none
      else none
  | _ => none

/-- Model of `Date.parse(value)` (the argument is stringified first; only
strings and `Date` arguments parse, everything else is `NaN`). -/
def jsDateParse : JsValue → Option Int
  | .str s => isoDateParse s
  | .date ms => some ms
  | _ => none

/-- Model of `new Date(value)`; `none` is an invalid date. -/
def jsNewDate : JsValue → Option Int
  | .date ms => some ms
  | .num q => some q.floor
  | .str s => isoDateParse s
  | .null => some 0
  | .bool b => some (if b then 1 else 0)
  | .undef => none

/-- JavaScript strict equality on the modelled values.  (`Date` objects
compare by reference in JavaScript; the model compares timestamps, which
agrees on every comparison the claims exercise.) -/
def jsStrictEq (a b : JsValue) : Bool := decide (a = b)

/-- JavaScript loose `value == null` (true exactly for `null`/`undefined`). -/
def jsLooseNull : JsValue → Bool
  | .null => true
  | .undef => true
  | _ => false

/-- JavaScript `a < b`: string-to-string comparisons are lexicographic,
everything else goes through `ToNumber`; a `NaN` side makes it false. -/
def jsLessThan (a b : JsValue) : Bool :=
  match a, b with
  | .str x, .str y => decide (x < y)
  | _, _ =>
      match jsToNumber a, jsToNumber b with
      | some x, some y => decide (x < y)
      | _, _ => false

/-- Both sides of a JavaScript relational comparison are defined (no `NaN`). -/
def jsCmpDefined (a b : JsValue) : Bool :=
  match a, b with
  | .str _, .str _ => true
  | _, _ => (jsToNumber a).isSome && (jsToNumber b).isSome

/-- JavaScript `a > b`. -/
def jsGreaterThan (a b : JsValue) : Bool := jsLessThan b a

/-- JavaScript `a >= b`. -/
def jsGe (a b : JsValue) : Bool := jsCmpDefined a b && ! jsLessThan a b

/-- JavaScript `a <= b`. -/
def jsLe (a b : JsValue) : Bool := jsCmpDefined a b && ! jsLessThan b a

/-- Model of `String.prototype.localeCompare` as plain lexicographic
comparison returning -1, 0 or 1. -/
def localeCompareModel (a b : String) : ℚ :=
  if a < b then -1 else if b < a then 1 else 0


/-- ASCII lower-casing of a character (the cases `toLowerCase` meets here
are plain ASCII type names). -/
def lowerChar (c : Char) : Char :=
  if 65 ≤ c.toNat ∧ c.toNat ≤ 90 then Char.ofNat (c.toNat + 32) else c

/-- Model of `String.prototype.toLowerCase` (ASCII). -/
def lowerString (s : String) : String := String.mk (s.data.map lowerChar)

/-- Decidable equality for `Except`, so that concrete runs of the modelled
operations can be checked by `decide`. -/
instance {ε α : Type} [DecidableEq ε] [DecidableEq α] : DecidableEq (Except ε α) := fun a b =>
  match a, b with
  | .error e, .error f =>
      if h : e = f then .isTrue (by rw [h]) else .isFalse (fun hc => by cases hc; exact h rfl)
  | .error _, .ok _ => .isFalse (fun hc => by cases hc)
  | .ok _, .error _ => .isFalse (fun hc => by cases hc)
  | .ok x, .ok y =>
      if h : x = y then .isTrue (by rw [h]) else .isFalse (fun hc => by cases hc; exact h rfl)

/-!
## Errors

Every `throw` site of the source is mapped to one constructor; the source
throws generic `Error` objects whose message carries the offending name,
which the constructors carry structurally.  `typeError` stands for a
JavaScript `TypeError` raised by the runtime itself, e.g. invoking a method
that does not exist on the receiver.
-/

/-- The error outcomes of the modelled operations. -/
inductive JsError where
  | columnNotFound (columnName : String) : JsError
  | nullNotAllowed (columnName : String) : JsError
  | numberCoercion (columnName : String) : JsError
  | dateCoercion (columnName : String) : JsError
  | duplicateColumn (columnName : String) : JsError
  | relationNotFound (relationName : String) : JsError
  | tableNotFound (tableName : String) : JsError
  | typeError : JsError
deriving DecidableEq, Repr

/-!
## DataColumn (src/DataColumn.js)

The `_table` back-reference is not stored; wherever the source reads
`this._table`, the model passes the owning table (or its column list)
explicitly.
-/

/-- A column definition, mirroring the fields of `DataColumn`. -/
structure DataColumn where
  columnName : String
  dataType : Option String := none
  ordinal : Int := -1
  allowNull : Bool := true
  defaultValue : JsValue := .null
  caption : String := ""
  expression : JsValue := .null
  readOnly : Bool := false
  unique : Bool := false
deriving DecidableEq, Repr

/-- The `DataColumn` constructor
`constructor(columnName, dataType = null, allowNull = true, defaultValue = null)`
(caption starts as the column name). -/
def mkDataColumn (columnName : String) (dataType : Option String := none)
    (allowNull : Bool := true) (defaultValue : JsValue := .null) : DataColumn :=
  { columnName := columnName, dataType := dataType, allowNull := allowNull,
    defaultValue := defaultValue, caption := columnName }

/-!
## Value maps

A row stores its values in a plain JavaScript object keyed by column name
(`this._values`).  The model is an association list preserving JavaScript
object key insertion order; a key can be present with value `undefined`
(distinct from the key being absent).
-/

/-- A JavaScript object holding column-name / value entries. -/
abbrev ValMap := List (String × JsValue)

/-- Key lookup (the first entry with the key — keys are unique in a
JavaScript object); `none` when the key is absent. -/
def ValMap.getKey : ValMap → String → Option JsValue
  | [], _ => none
  | kv :: rest, k => if kv.1 = k then some kv.2 else ValMap.getKey rest k

/-- Reading `obj[k]` in JavaScript: an absent key reads as `undefined`. -/
def ValMap.read (vm : ValMap) (k : String) : JsValue :=
  Option.getD (vm.getKey k) JsValue.undef

/-- Whether `obj.hasOwnProperty(k)` holds. -/
def ValMap.hasKey (vm : ValMap) (k : String) : Bool :=
  (vm.getKey k).isSome

/-- Writing `obj[k] = v`: updates the entry in place when the key exists
(keeping its position; keys are unique in a JavaScript object, matching the
first suffices), appends it otherwise — JavaScript object key-order
semantics. -/
def ValMap.write : ValMap → String → JsValue → ValMap
  | [], k, v => [(k, v)]
  | kv :: rest, k, v =>
      if kv.1 = k then (k, v) :: rest else kv :: ValMap.write rest k v

/-- `delete obj[k]`. -/
def ValMap.del (vm : ValMap) (k : String) : ValMap :=
  vm.filter (fun kv => kv.1 ≠ k)

/-- The object key list (`Object.keys`). -/
def ValMap.keyList (vm : ValMap) : List String := vm.map (·.1)

/-- `Object.assign(target, source)`: write every source entry into the
target, in source order. -/
def ValMap.assignFrom (target source : ValMap) : ValMap :=
  source.foldl (fun vm kv => vm.write kv.1 kv.2) target

/-!
## DataRowState (src/enums/DataRowState.js) and DataRow (src/DataRow.js)
-/

/-- The row change-tracking states. -/
inductive DataRowState where
  | ADDED | MODIFIED | DELETED | UNCHANGED
deriving DecidableEq, Repr

/-- The mutable per-row data of a `DataRow`: `_values`, `_originalValues` and
`_rowState`.  The `_table` back-reference is passed explicitly where the
source reads it. -/
structure RowCell where
  values : ValMap := []
  originalValues : ValMap := []
  rowState : DataRowState := .ADDED
deriving DecidableEq, Repr

instance : Inhabited RowCell := ⟨{}⟩

/-- Find a column by name in a column list (`Map.get` keyed by name; the
first match, and column names are unique in any reachable table). -/
def findColumn (cols : List DataColumn) (name : String) : Option DataColumn :=
  cols.find? (fun c => c.columnName = name)

/-- `DataColumnCollection.contains(name)` (`Map.has`). -/
def containsColumn (cols : List DataColumn) (name : String) : Bool :=
  (findColumn cols name).isSome

/-- The `DataRow` constructor: every current column is written into
`_values` with its default value; state starts as `ADDED` and
`_originalValues` starts empty. -/
def newRowCell (cols : List DataColumn) : RowCell :=
  { values := cols.foldl (fun vm c => vm.write c.columnName c.defaultValue) [],
    originalValues := [], rowState := .ADDED }

/-- `DataRow.get(columnName)` (name form): fails when the column does not
exist in the owning table, otherwise reads `_values[columnName]`. -/
def rowGet (cols : List DataColumn) (cell : RowCell) (columnName : String) :
    Except JsError JsValue :=
  if containsColumn cols columnName then .ok (cell.values.read columnName)
  else .error (.columnNotFound columnName)

/-- The type-validation step of `DataRow.set`: a non-null value written to a
typed column is coerced, and an unconvertible value for a `number` or `date`
column throws.  Mirrors the `switch` on `column.dataType.toLowerCase()`;
a column whose `dataType` is null skips the step (the `column.dataType`
truthiness test). -/
def coerceForColumn (column : DataColumn) (columnName : String) (value : JsValue) :
    Except JsError JsValue :=
  if value = .null then .ok value else
  match column.dataType with
  | none => .ok value
  | some dt =>
      match lowerString dt with
      | "number" =>
          match jsToNumber value with
          | none => .error (.numberCoercion columnName)
          | some q => .ok (.num q)
      | "date" =>
          match value with
          | .date ms => .ok (.date ms)
          | _ =>
              match jsDateParse value with
              | none => .error (.dateCoercion columnName)
              | some ms => .ok (.date ms)
      | "string" => .ok (.str (jsToString value))
      | "boolean" =>
          match value with
          | .bool b => .ok (.bool b)
          | _ => .ok (.bool (jsToBool value))
      | _ => .ok value

/-- `DataRow.set(columnName, value)`: column-existence check, null
validation against `allowNull`, type coercion, lazy snapshot of the previous
value into `_originalValues` on the first write to that column, then the
write and the transition to `MODIFIED`.  Every failing path throws before
the first mutation, so an error leaves the row exactly as it was. -/
def cellSet (cols : List DataColumn) (cell : RowCell) (columnName : String)
    (value : JsValue) : Except JsError RowCell :=
  match findColumn cols columnName with
  | none => .error (.columnNotFound columnName)
  | some column =>
      if value = .null ∧ column.allowNull = false then
        .error (.nullNotAllowed columnName)
      else
        match coerceForColumn column columnName value with
        | .error e => .error e
        | .ok coerced =>
            let orig :=
              if cell.originalValues.hasKey columnName then cell.originalValues
              else cell.originalValues.write columnName (cell.values.read columnName)
            .ok { values := cell.values.write columnName coerced,
                  originalValues := orig, rowState := .MODIFIED }

/-!
## The row heap and table state

`DataRow` objects are JavaScript heap objects; the model gives them explicit
addresses so that reference identity and aliasing are expressible.  A table
holds its column list (the insertion-ordered `Map` of
`DataColumnCollection`) and the `_rows` array of the `DataRowCollection` as
a list of row addresses.
-/

/-- The heap of all allocated `DataRow` objects; an address is an index. -/
abbrev Heap := List RowCell

/-- Dereference a row address. -/
def heapRead (h : Heap) (a : Nat) : RowCell := h.getD a default

/-- Overwrite the cell at an address (in-place object mutation). -/
def heapWrite (h : Heap) (a : Nat) (c : RowCell) : Heap := h.set a c

/-- Allocate a fresh row object at the end of the heap. -/
def heapAlloc (h : Heap) (c : RowCell) : Nat × Heap := (h.length, h ++ [c])

/-- The state of one `DataTable`. -/
structure TableSt where
  tableName : String := ""
  columns : List DataColumn := []
  rows : List Nat := []
  caseSensitive : Bool := false
deriving DecidableEq, Repr

/-- The `DataTable` constructor: empty collections. -/
def newDataTable (tableName : String := "") : TableSt := { tableName := tableName }

/-- All row addresses of a table point into the heap. -/
def validTable (h : Heap) (t : TableSt) : Prop := ∀ a ∈ t.rows, a < h.length

instance (h : Heap) (t : TableSt) : Decidable (validTable h t) := by
  unfold validTable; infer_instance

/-!
## DataColumnCollection (src/collections/DataColumnCollection.js)
-/

/-- `DataColumnCollection.add`: reject a duplicate name, assign
`ordinal = current size`, append to the insertion-ordered map, and back-fill
the new column's default value into every existing row of the table. -/
def columnsAdd (h : Heap) (t : TableSt) (col : DataColumn) :
    Except JsError (DataColumn × Heap × TableSt) :=
  if containsColumn t.columns col.columnName then
    .error (.duplicateColumn col.columnName)
  else
    let col' := { col with ordinal := (t.columns.length : Int) }
    let h' := t.rows.foldl
      (fun hh a =>
        heapWrite hh a
          (let c := heapRead hh a
           { c with values := c.values.write col'.columnName col'.defaultValue })) h
    .ok (col', h', { t with columns := t.columns ++ [col'] })

/-- `DataTable.addColumn(columnName, dataType)`: delegates to the collection
with a freshly constructed column. -/
def addColumnT (h : Heap) (t : TableSt) (columnName : String)
    (dataType : Option String := none) : Except JsError (DataColumn × Heap × TableSt) :=
  columnsAdd h t (mkDataColumn columnName dataType)

/-- The ordinal-recomputation loop at the end of `DataColumnCollection.remove`
(`let ordinal = 0; for col of columns: col.ordinal = ordinal++`). -/
def renumberColumns (start : Nat) : List DataColumn → List DataColumn
  | [] => []
  | c :: rest => { c with ordinal := (start : Int) } :: renumberColumns (start + 1) rest

/-- `DataColumnCollection.remove`: reject an unknown name, delete the single
binding with that name (names are unique in the map, so a filter deletes
exactly it), strip that key from every existing row, and recompute the
ordinals densely over the surviving columns in order. -/
def columnsRemove (h : Heap) (t : TableSt) (columnName : String) :
    Except JsError (Heap × TableSt) :=
  if containsColumn t.columns columnName then
    let cols := renumberColumns 0 (t.columns.filter (fun c => c.columnName ≠ columnName))
    let h' := t.rows.foldl
      (fun hh a =>
        heapWrite hh a
          (let c := heapRead hh a
           { c with values := c.values.del columnName })) h
    .ok (h', { t with columns := cols })
  else .error (.columnNotFound columnName)

/-!
## DataRowCollection (src/collections/DataRowCollection.js) and the
row-facing methods of DataTable (src/DataTable.js)
-/

/-- `DataRowCollection.add` with a plain object argument: a fresh `DataRow`
is constructed (all columns at their defaults), then every entry whose key
is a current column name is written RAW into `_values` (no `DataRow.set`
validation or coercion), unknown keys are skipped, and the row is appended.
Returns the new row's address.  `DataTable.addRow(values)` delegates here. -/
def rowsAddObjCell (cols : List DataColumn) (entries : List (String × JsValue)) : RowCell :=
  let base := newRowCell cols
  let written := entries.foldl
    (fun vm kv => if containsColumn cols kv.1 then vm.write kv.1 kv.2 else vm)
    base.values
  { base with values := written }

/-- The allocation-and-append step of the object form. -/
def rowsAddObj (h : Heap) (t : TableSt) (entries : List (String × JsValue)) :
    Nat × Heap × TableSt :=
  let (a, h') := heapAlloc h (rowsAddObjCell t.columns entries)
  (a, h', { t with rows := t.rows ++ [a] })

/-- The column/value pairing of the array form of `DataRowCollection.add`:
each column at position `i` is paired with `row[i]` (reading past the end
of the array gives `undefined`). -/
def positionalPairs (vals : List JsValue) (i : Nat) : List DataColumn → List (String × JsValue)
  | [] => []
  | c :: rest => (c.columnName, vals.getD i JsValue.undef) :: positionalPairs vals (i + 1) rest

/-- `DataRowCollection.add` with an array argument: positional values are
written raw by column ordinal, and the row is appended. -/
def rowsAddArrCell (cols : List DataColumn) (vals : List JsValue) : RowCell :=
  let base := newRowCell cols
  let written := (positionalPairs vals 0 cols).foldl
    (fun vm kv => vm.write kv.1 kv.2) base.values
  { base with values := written }

/-- The allocation-and-append step of the array form. -/
def rowsAddArr (h : Heap) (t : TableSt) (vals : List JsValue) :
    Nat × Heap × TableSt :=
  let (a, h') := heapAlloc h (rowsAddArrCell t.columns vals)
  (a, h', { t with rows := t.rows ++ [a] })

/-- `DataTable.addRow(table.newRow())` done at once: a fresh default row is
allocated (`new DataRow(table)`) and appended. -/
def rowsAddNewRow (h : Heap) (t : TableSt) : Nat × Heap × TableSt :=
  let (a, h') := heapAlloc h (newRowCell t.columns)
  (a, h', { t with rows := t.rows ++ [a] })

/-- `DataRowCollection.removeAt(index)` (and `DataTable.removeRow`): remove
positionally when `0 <= index < length`, otherwise do nothing.  The function
is total: the source raises no error on an out-of-range index. -/
def rowsRemoveAt (t : TableSt) (index : Int) : TableSt :=
  if 0 ≤ index ∧ index < (t.rows.length : Int) then
    { t with rows := t.rows.eraseIdx index.toNat }
  else t

/-- `DataRowCollection.clear`. -/
def rowsClear (t : TableSt) : TableSt := { t with rows := [] }

/-- `row.set(...)` on the row object at a heap address (the row's owning
table supplies the column list the source reads through `this._table`). -/
def heapRowSet (h : Heap) (cols : List DataColumn) (a : Nat) (columnName : String)
    (value : JsValue) : Except JsError Heap :=
  match cellSet cols (heapRead h a) columnName value with
  | .error e => .error e
  | .ok c => .ok (heapWrite h a c)

/-- `DataTable.select(filterExpression)`: filters on each row's `_values`
and returns the `_values` objects themselves (`.map(row => row._values)`),
not copies.  Each row object owns exactly one values object, so the returned
value-object references are represented by the owning rows' addresses. -/
def selectT (h : Heap) (t : TableSt) (pred : ValMap → Bool) : List Nat :=
  t.rows.filter (fun a => pred (heapRead h a).values)

/-!
## DataTable.findRows / findOne (src/DataTable.js lines 199-240)

A function criterion is applied to `row._values` (line 201) — the plain
values object, not the `DataRow`.  `JsArg` models the dynamically typed
argument such a callback receives: a callback that invokes `row.get(...)`
succeeds on a `DataRow` receiver and raises a `TypeError` on a plain object,
which has no `get` method.
-/

/-- A JavaScript argument that a row callback may receive: a `DataRow`
object (with its owning table's columns) or a plain values object. -/
inductive JsArg where
  | rowRef (cols : List DataColumn) (cell : RowCell)
  | plainObj (vm : ValMap)

/-- Calling `.get(name)` on such an argument: a `DataRow` dispatches to
`DataRow.get`; a plain object has no `get` method, so the call is a
`TypeError`. -/
def argRowGet : JsArg → String → Except JsError JsValue
  | .rowRef cols cell, name => rowGet cols cell name
  | .plainObj _, _ => .error .typeError

/-- The criteria accepted by `findRows`: a callback, or a criteria object
whose per-column entries are a direct value, a pattern (`RegExp`, modelled
as an abstract test on the stringified value), or one of the
`$gt/$gte/$lt/$lte/$ne/$in/$contains` operator objects. -/
inductive Criterion where
  | val (v : JsValue)
  | pattern (test : String → Bool)
  | gtOp (v : JsValue)
  | gteOp (v : JsValue)
  | ltOp (v : JsValue)
  | lteOp (v : JsValue)
  | neOp (v : JsValue)
  | inOp (vs : List JsValue)
  | containsOp (sub : String)

/-- `String.prototype.includes`. -/
def strContainsModel (hay sub : String) : Bool :=
  (List.range (hay.data.length + 1)).any (fun i => sub.data.isPrefixOf (hay.data.drop i))

/-- One entry of a criteria object matched against a row value, mirroring
the `if` chain of `findRows`. -/
def matchCriterion (rowValue : JsValue) : Criterion → Bool
  | .val v => jsStrictEq rowValue v
  | .pattern test => test (jsToString rowValue)
  | .gtOp v => jsGreaterThan rowValue v
  | .gteOp v => jsGe rowValue v
  | .ltOp v => jsLessThan rowValue v
  | .lteOp v => jsLe rowValue v
  | .neOp v => ! jsStrictEq rowValue v
  | .inOp vs => vs.any (fun v => jsStrictEq v rowValue)
  | .containsOp sub => strContainsModel (jsToString rowValue) sub

/-- The argument of `findRows`. -/
inductive FindArg where
  | fn (f : JsArg → Except JsError Bool)
  | obj (criteria : List (String × Criterion))

/-- `DataTable.findRows(criteria)`: a function criterion is applied to each
row's plain `_values` object in order (a thrown error propagates); a
criteria object requires every entry to match (`every`, logical AND). -/
def findRowsT (h : Heap) (t : TableSt) : FindArg → Except JsError (List Nat)
  | .fn f => t.rows.filterM (fun a => f (.plainObj (heapRead h a).values))
  | .obj cs =>
      .ok (t.rows.filter (fun a =>
        cs.all (fun kc => matchCriterion ((heapRead h a).values.read kc.1) kc.2)))

/-- `DataTable.findOne(criteria)`: first match or `null`. -/
def findOneT (h : Heap) (t : TableSt) (arg : FindArg) : Except JsError (Option Nat) :=
  (findRowsT h t arg).map List.head?

/-!
## DataRelation (src/DataRelation.js) and DataSet (src/DataSet.js)

A `DataRelation` holds direct references to its parent/child columns and
derives the two table references from the columns' back-references.  The
model carries the table and column names and resolves the table through the
dataset (the dataset invariant of the specification: a relation's tables are
members of the dataset).  A `DataRow` argument's `_table` back-reference is
passed explicitly as the owning table's column list.
-/

/-- A relation between a parent table's column and a child table's column. -/
structure DataRelation where
  relationName : String
  parentTableName : String
  parentColumnName : String
  childTableName : String
  childColumnName : String
deriving DecidableEq, Repr

/-- The state of one `DataSet`: named tables plus an ordered relation list. -/
structure DataSetSt where
  dataSetName : String := ""
  tables : List (String × TableSt) := []
  relations : List DataRelation := []
deriving Repr

/-- Resolve a table of the dataset by name (the source follows a direct
object reference; the lookup is the model's name-based form of it). -/
def dsTable (ds : DataSetSt) (name : String) : Except JsError TableSt :=
  match (ds.tables.find? (fun nt => nt.1 = name)).map (·.2) with
  | none => .error (.tableNotFound name)
  | some t => .ok t

/-- `DataSet.removeRelation(relationName)`: remove the first relation with
that name; an unknown name leaves the list unchanged (`findIndex` returns
-1 and nothing is spliced).  Total: the source raises no error. -/
def removeRelation (ds : DataSetSt) (relationName : String) : DataSetSt :=
  match ds.relations.findIdx? (fun r => r.relationName = relationName) with
  | none => ds
  | some i => { ds with relations := ds.relations.eraseIdx i }

/-- `DataSet.getChildRows(parentRow, relationName)`: fails when the relation
name is absent; otherwise reads the parent row's relation-column value and
calls `childTable.findRows(row => row.get(childColumn) === parentValue)`.
`findRows` applies that callback to each child row's plain `_values` object
(src/DataTable.js line 201), on which the `get` call is a `TypeError`. -/
def getChildRows (h : Heap) (ds : DataSetSt) (parentCols : List DataColumn)
    (parentAddr : Nat) (relationName : String) : Except JsError (List Nat) :=
  match ds.relations.find? (fun r => r.relationName = relationName) with
  | none => .error (.relationNotFound relationName)
  | some rel => do
      let parentValue ← rowGet parentCols (heapRead h parentAddr) rel.parentColumnName
      let childTable ← dsTable ds rel.childTableName
      findRowsT h childTable (.fn (fun row => do
        let v ← argRowGet row rel.childColumnName
        pure (jsStrictEq v parentValue)))

/-- `DataSet.getParentRow(childRow, relationName)`: symmetric, through
`parentTable.findOne(row => row.get(parentColumn) === childValue)`. -/
def getParentRow (h : Heap) (ds : DataSetSt) (childCols : List DataColumn)
    (childAddr : Nat) (relationName : String) : Except JsError (Option Nat) :=
  match ds.relations.find? (fun r => r.relationName = relationName) with
  | none => .error (.relationNotFound relationName)
  | some rel => do
      let childValue ← rowGet childCols (heapRead h childAddr) rel.childColumnName
      let parentTable ← dsTable ds rel.parentTableName
      findOneT h parentTable (.fn (fun row => do
        let v ← argRowGet row rel.parentColumnName
        pure (jsStrictEq v childValue)))

/-!
## DataTable.clone and sorting (src/DataTable.js)
-/

/-- The per-column copy `DataTable.clone` makes: a fresh `DataColumn` from
name, type, nullability and default, with caption, expression, readOnly and
unique copied across (the ordinal is reassigned by the collection add). -/
def cloneColumn (col : DataColumn) : DataColumn :=
  { mkDataColumn col.columnName col.dataType col.allowNull col.defaultValue with
    caption := col.caption, expression := col.expression,
    readOnly := col.readOnly, unique := col.unique }

/-- The column loop of `DataTable.clone`: each cloned column goes through
`columns.add` on the new table (which still has no rows). -/
def cloneColumnsLoop : List DataColumn → Heap → TableSt → Except JsError (Heap × TableSt)
  | [], h, t => .ok (h, t)
  | col :: rest, h, t =>
      match columnsAdd h t (cloneColumn col) with
      | .error e => .error e
      | .ok (_, h', t') => cloneColumnsLoop rest h' t'

/-- The per-row copy of `DataTable.clone`: a fresh `DataRow` against the
new table's columns, `Object.assign` of `_values` and `_originalValues`
into it, and the copied state. -/
def cloneRowCell (tmpCols : List DataColumn) (src : RowCell) : RowCell :=
  { values := (newRowCell tmpCols).values.assignFrom src.values,
    originalValues := (newRowCell tmpCols).originalValues.assignFrom src.originalValues,
    rowState := src.rowState }

/-- The row loop of `DataTable.clone`: each copied row is allocated and
appended to the new table. -/
def cloneRowsLoop : List Nat → Heap → TableSt → Heap × TableSt
  | [], h, t => (h, t)
  | a :: rest, h, t =>
      let (na, h') := heapAlloc h (cloneRowCell t.columns (heapRead h a))
      cloneRowsLoop rest h' { t with rows := t.rows ++ [na] }

/-- `DataTable.clone()`: a new table, cloned columns, cloned rows, copied
`caseSensitive`. -/
def cloneT (h : Heap) (t : TableSt) : Except JsError (Heap × TableSt) :=
  match cloneColumnsLoop t.columns h (newDataTable t.tableName) with
  | .error e => .error e
  | .ok (h₁, t₁) =>
      let (h₂, t₂) := cloneRowsLoop t.rows h₁ t₁
      .ok (h₂, { t₂ with caseSensitive := t.caseSensitive })

/-- The comparator `DataTable.sort` builds for a column name: `item()` reads
both values (throwing when the column does not exist), strict-equal values
compare equal, null-or-undefined values sort last regardless of direction,
then the column's declared type picks numeric difference, date difference
or locale string comparison, negated unless the order is `asc`.  (A `NaN`
operand of the numeric cases is modelled as 0; the engine likewise treats a
`NaN` comparator result as a tie.) -/
def columnComparator (cols : List DataColumn) (columnName order : String)
    (a b : RowCell) : Except JsError ℚ := do
  let valueA ← rowGet cols a columnName
  let valueB ← rowGet cols b columnName
  if jsStrictEq valueA valueB then pure 0
  else if jsLooseNull valueA then pure 1
  else if jsLooseNull valueB then pure (-1)
  else
    let comparison : ℚ :=
      match (findColumn cols columnName).bind (fun c => c.dataType) with
      | some dt =>
          match lowerString dt with
          | "number" => ((jsToNumber valueA).getD 0) - ((jsToNumber valueB).getD 0)
          | "date" =>
              (((jsNewDate valueA).getD 0 : Int) : ℚ) - (((jsNewDate valueB).getD 0 : Int) : ℚ)
          | "string" => localeCompareModel (jsToString valueA) (jsToString valueB)
          | _ => localeCompareModel (jsToString valueA) (jsToString valueB)
      | none => localeCompareModel (jsToString valueA) (jsToString valueB)
    pure (if order = "asc" then comparison else -comparison)

/-- The comparator `DataTable.sortBy(expression)` builds: the derived keys
are compared with strict equality, strict-null keys sort last, otherwise
the JavaScript `<` decides. -/
def sortByComparator (expr : RowCell → JsValue) (a b : RowCell) : ℚ :=
  let valueA := expr a
  let valueB := expr b
  if jsStrictEq valueA valueB then 0
  else if valueA = .null then 1
  else if valueB = .null then -1
  else if jsLessThan valueA valueB then -1 else 1

/-- Stable insertion of one element into an already-processed list under a
possibly-throwing comparator (negative means before). -/
def insertSortedE {α E : Type} (cmp : α → α → Except E ℚ) (x : α) :
    List α → Except E (List α)
  | [] => .ok [x]
  | y :: ys => do
      let c ← cmp x y
      if c < 0 then .ok (x :: y :: ys)
      else do
        let rest ← insertSortedE cmp x ys
        .ok (y :: rest)

/-- Model of `Array.prototype.sort(comparator)` as a stable insertion sort.
For every consistent comparator this produces the same (stable) order as
the engine sort the source calls; it is deterministic, which is the only
further property used. -/
def sortListE {α E : Type} (cmp : α → α → Except E ℚ) (l : List α) :
    Except E (List α) :=
  l.foldlM (fun acc x => insertSortedE cmp x acc) []

/-- `DataTable.sort(columnName, order)` (the column-name branch): reorders
`_rows` in place by the column comparator. -/
def tableSortByColumn (h : Heap) (t : TableSt) (columnName order : String) :
    Except JsError TableSt :=
  (sortListE
      (fun a b => columnComparator t.columns columnName order (heapRead h a) (heapRead h b))
      t.rows).map
    (fun sorted => { t with rows := sorted })

/-- `DataTable.sort(comparer)` (the function branch): the caller's comparator
is applied to the row objects directly. -/
def tableSortComparer (h : Heap) (t : TableSt) (cmp : RowCell → RowCell → ℚ) :
    Except JsError TableSt :=
  (sortListE (fun a b => .ok (cmp (heapRead h a) (heapRead h b))) t.rows).map
    (fun sorted => { t with rows := sorted })

/-- `DataTable.sortBy(expression)`: reorders `_rows` by the derived-key
comparator. -/
def tableSortBy (h : Heap) (t : TableSt) (expr : RowCell → JsValue) :
    Except JsError TableSt :=
  (sortListE (fun a b => .ok (sortByComparator expr (heapRead h a) (heapRead h b))) t.rows).map
    (fun sorted => { t with rows := sorted })

/-!
## DataView (src/DataView.js)

A view's own state is exactly its constructor fields `_rowFilter`, `_sort`
and `_sortOrder` (the `_table` reference is passed explicitly); it has no
cache field.
-/

/-- The view's filter: absent, a row callback, or a criteria object. -/
inductive ViewFilter where
  | noFilter
  | fnFilter (f : RowCell → Bool)
  | criteriaFilter (cs : List (String × Criterion))

/-- The view's sort: absent, a column name, or a `sortBy` key expression. -/
inductive ViewSort where
  | noSort
  | colSort (columnName : String)
  | fnSort (expr : RowCell → JsValue)

/-- The per-view state (`_rowFilter`, `_sort`, `_sortOrder`). -/
structure ViewSt where
  rowFilter : ViewFilter := .noFilter
  sort : ViewSort := .noSort
  sortOrder : String := "asc"

/-- The inner loop of `DataView._cloneTableWithRows`: writes every source
column value into the freshly created row of the temporary table through
`newRow.set` (so coercion, validation, original-value snapshots and the
`MODIFIED` transition all apply).  The loop list starts as the backing
table's columns. -/
def setAllColumnsLoop (srcCols tmpCols : List DataColumn) (srcAddr na : Nat) :
    List DataColumn → Heap → Except JsError Heap
  | [], h => .ok h
  | col :: rest, h => do
      let v ← rowGet srcCols (heapRead h srcAddr) col.columnName
      let h' ← heapRowSet h tmpCols na col.columnName v
      setAllColumnsLoop srcCols tmpCols srcAddr na rest h'

/-- The row loop of `DataView._cloneTableWithRows`: per selected row, a
fresh row of the temporary table is allocated, populated column by column
through `set`, and appended to the temporary table. -/
def copyRowsLoop (srcCols : List DataColumn) :
    List Nat → Heap → TableSt → Except JsError (Heap × TableSt)
  | [], h, tp => .ok (h, tp)
  | a :: rest, h, tp => do
      let (na, h₁) := heapAlloc h (newRowCell tp.columns)
      let h₂ ← setAllColumnsLoop srcCols tp.columns a na srcCols h₁
      copyRowsLoop srcCols rest h₂ { tp with rows := tp.rows ++ [na] }

/-- `DataView._cloneTableWithRows(rows)`: clone the backing table (the
cloned rows are discarded by the `clear`, their allocations remaining as
garbage), then repopulate it with the selected rows through `set`. -/
def cloneTableWithRows (h : Heap) (t : TableSt) (rowAddrs : List Nat) :
    Except JsError (Heap × TableSt) :=
  match cloneT h t with
  | .error e => .error e
  | .ok (h₁, temp) => copyRowsLoop t.columns rowAddrs h₁ (rowsClear temp)

/-- The filter stage of `DataView.getRows()`: start from the live `_rows`
array; a callback filter receives the row objects, a criteria filter goes
through `findRows`. -/
def getRowsFilterStage (h : Heap) (v : ViewSt) (t : TableSt) : Except JsError (List Nat) :=
  match v.rowFilter with
  | .noFilter => .ok t.rows
  | .fnFilter f => .ok (t.rows.filter (fun a => f (heapRead h a)))
  | .criteriaFilter cs => findRowsT h t (.obj cs)

/-- The sort stage of `DataView.getRows()`: with no sort the backing table's
own row objects are returned; with a sort set, the selected rows are copied
into the temporary cloned table, which is sorted (`sortBy` for a function,
`sort` for a column name) and whose rows are returned. -/
def getRowsSortStage (h : Heap) (t : TableSt) (v : ViewSt) (rows : List Nat) :
    Except JsError (Heap × List Nat) :=
  match v.sort with
  | .noSort => .ok (h, rows)
  | .colSort columnName => do
      let (h₁, temp) ← cloneTableWithRows h t rows
      let temp' ← tableSortByColumn h₁ temp columnName v.sortOrder
      pure (h₁, temp'.rows)
  | .fnSort expr => do
      let (h₁, temp) ← cloneTableWithRows h t rows
      let temp' ← tableSortBy h₁ temp expr
      pure (h₁, temp'.rows)

/-- `DataView.getRows()`: the filter stage followed by the sort stage.
Nothing is cached: the result is recomputed from the live state on every
call, and the backing table is never mutated (the heap only grows by the
temporary allocations). -/
def getRowsT (h : Heap) (v : ViewSt) (t : TableSt) : Except JsError (Heap × List Nat) := do
  let rows ← getRowsFilterStage h v t
  getRowsSortStage h t v rows

/-- The value sequence a `getRows()` call yields (the observable contents
and order of the returned rows). -/
def getRowsVals (h : Heap) (v : ViewSt) (t : TableSt) : Except JsError (List ValMap) :=
  (getRowsT h v t).map (fun hr => hr.2.map (fun a => (heapRead hr.1 a).values))

/-!
## Reachable table states

`TableOp` is the alphabet of table mutations exposed by `DataTable`: the
column operations, the three `addRow` input shapes (rows constructed by
`addRow` itself), a `set` on a row of the table, positional row removal and
`clear`.  A throwing operation mutates nothing (every throw site of the
source precedes its first mutation), so a failed operation leaves the state
unchanged and a sequence of operations is a fold.
-/

/-- One `DataTable` mutation. -/
inductive TableOp where
  | addCol (col : DataColumn)
  | removeCol (name : String)
  | addRowObj (entries : List (String × JsValue))
  | addRowArr (vals : List JsValue)
  | addRowNew
  | setRow (i : Nat) (name : String) (v : JsValue)
  | removeRowAt (i : Int)
  | clearRows

/-- Apply one operation; a thrown error leaves the state unchanged. -/
def applyTableOp (st : Heap × TableSt) : TableOp → Heap × TableSt
  | .addCol col =>
      match columnsAdd st.1 st.2 col with
      | .ok r => (r.2.1, r.2.2)
      | .error _ => st
  | .removeCol n =>
      match columnsRemove st.1 st.2 n with
      | .ok r => r
      | .error _ => st
  | .addRowObj es => ((rowsAddObj st.1 st.2 es).2.1, (rowsAddObj st.1 st.2 es).2.2)
  | .addRowArr vs => ((rowsAddArr st.1 st.2 vs).2.1, (rowsAddArr st.1 st.2 vs).2.2)
  | .addRowNew => ((rowsAddNewRow st.1 st.2).2.1, (rowsAddNewRow st.1 st.2).2.2)
  | .setRow i n v =>
      match st.2.rows.get? i with
      | none => st
      | some a =>
          match heapRowSet st.1 st.2.columns a n v with
          | .ok h => (h, st.2)
          | .error _ => st
  | .removeRowAt i => (st.1, rowsRemoveAt st.2 i)
  | .clearRows => (st.1, rowsClear st.2)

/-- Apply a sequence of operations. -/
def applyTableOps (ops : List TableOp) (st : Heap × TableSt) : Heap × TableSt :=
  ops.foldl applyTableOp st

/-- The structural invariant of a table: unique column names, dense ordinals
matching the iteration order, valid row addresses, and every row's value-map
key list equal to the column-name list (in order). -/
def tableInvariant (h : Heap) (t : TableSt) : Prop :=
  (t.columns.map (fun c => c.columnName)).Nodup ∧
  t.columns.map (fun c => c.ordinal) = (List.range t.columns.length).map Int.ofNat ∧
  (∀ a ∈ t.rows, a < h.length) ∧
  (∀ a ∈ t.rows, (heapRead h a).values.keyList = t.columns.map (fun c => c.columnName))

instance (h : Heap) (t : TableSt) : Decidable (tableInvariant h t) := by
  unfold tableInvariant; infer_instance

/-!
## Heap-free forms of the DataView pipeline

`getRowsT` allocates its temporary rows on the heap.  The following pure
functions compute the same row contents directly; the simulation lemmas
below prove they agree with the heap-level definitions, which is what makes
the no-caching / no-mutation properties of `DataView.getRows` provable.
-/

/-- Heap-free form of `setAllColumnsLoop`: the per-column `set` chain
applied to a source snapshot. -/
def setAllColumnsPure (srcCols tmpCols : List DataColumn) (src : RowCell) :
    List DataColumn → RowCell → Except JsError RowCell
  | [], c => .ok c
  | col :: rest, c => do
      let v ← rowGet srcCols src col.columnName
      let c' ← cellSet tmpCols c col.columnName v
      setAllColumnsPure srcCols tmpCols src rest c'

/-- Heap-free form of `copyRowsLoop`: each selected source row becomes a
fresh default row of the temporary table populated through `set`. -/
def copyRowsPure (srcCols tmpCols : List DataColumn) :
    List RowCell → Except JsError (List RowCell)
  | [] => .ok []
  | src :: rest => do
      let c ← setAllColumnsPure srcCols tmpCols src srcCols (newRowCell tmpCols)
      let cs ← copyRowsPure srcCols tmpCols rest
      .ok (c :: cs)

/-- Heap-free form of one `columns.add` (no rows to back-fill). -/
def columnsAddPure (cols : List DataColumn) (col : DataColumn) :
    Except JsError (List DataColumn) :=
  if containsColumn cols col.columnName then .error (.duplicateColumn col.columnName)
  else .ok (cols ++ [{ col with ordinal := (cols.length : Int) }])

/-- Heap-free form of the column loop of `DataTable.clone` (the clone has no
rows while its columns are added). -/
def cloneColumnsPure : List DataColumn → List DataColumn → Except JsError (List DataColumn)
  | [], acc => .ok acc
  | col :: rest, acc =>
      match columnsAddPure acc (cloneColumn col) with
      | .error e => .error e
      | .ok acc' => cloneColumnsPure rest acc'

/-- The filter stage of `DataView.getRows` on row snapshots. -/
def filterCellsPure (v : ViewFilter) (cells : List RowCell) : List RowCell :=
  match v with
  | .noFilter => cells
  | .fnFilter f => cells.filter f
  | .criteriaFilter cs =>
      cells.filter (fun c => cs.all (fun kc => matchCriterion (c.values.read kc.1) kc.2))

/-- The sort stage of `DataView.getRows` on row snapshots: the heap-free
counterpart of `getRowsSortStage` followed by reading off the values. -/
def getRowsSpecSort (srcCols : List DataColumn) (v : ViewSt) (fcells : List RowCell) :
    Except JsError (List ValMap) :=
  match v.sort with
  | .noSort => .ok (fcells.map (fun c => c.values))
  | .colSort columnName => do
      let tmpCols ← cloneColumnsPure srcCols []
      let copies ← copyRowsPure srcCols tmpCols fcells
      let sorted ← sortListE (fun a b => columnComparator tmpCols columnName v.sortOrder a b) copies
      pure (sorted.map (fun c => c.values))
  | .fnSort expr => do
      let tmpCols ← cloneColumnsPure srcCols []
      let copies ← copyRowsPure srcCols tmpCols fcells
      let sorted ← sortListE (fun a b => .ok (sortByComparator expr a b)) copies
      pure (sorted.map (fun c => c.values))

/-- The value sequence `DataView.getRows` yields, computed directly from the
snapshot of the backing table's row cells — the heap-free specification of
`getRowsVals`. -/
def getRowsSpec (srcCols : List DataColumn) (v : ViewSt) (cells : List RowCell) :
    Except JsError (List ValMap) :=
  getRowsSpecSort srcCols v (filterCellsPure v.rowFilter cells)

/-!
## Concrete fixtures

Small concrete tables used to run the modelled operations on explicit
inputs: a one-column one-row table (column `a`, value 1), and the
parent/child dataset of the specification's relation scenario
(`P.id = 7`, children `C.pid = 7` and `C.pid = 8`).
-/

/-- A row object holding `a = 1`. -/
def cellA1 : RowCell :=
  { values := [("a", .num 1)], originalValues := [], rowState := .ADDED }

/-- The row object `cellA1` after `set("a", 2)`. -/
def cellA2 : RowCell :=
  { values := [("a", .num 2)], originalValues := [("a", .num 1)], rowState := .MODIFIED }

/-- A table with one untyped column `a` owning the row at address 0. -/
def tableA : TableSt :=
  { tableName := "t", columns := [mkDataColumn "a"], rows := [0], caseSensitive := false }

/-- An empty table with one `number` column `a` that forbids null. -/
def tableNum : TableSt :=
  { tableName := "t", columns := [mkDataColumn "a" (some "number") false], rows := [],
    caseSensitive := false }

/-- Parent row with `id = 7` (address 0 of `heapPC`). -/
def cellId7 : RowCell :=
  { values := [("id", .num 7)], originalValues := [], rowState := .ADDED }

/-- Child row with `pid = 7` (address 1 of `heapPC`). -/
def cellPid7 : RowCell :=
  { values := [("pid", .num 7)], originalValues := [], rowState := .ADDED }

/-- Child row with `pid = 8` (address 2 of `heapPC`). -/
def cellPid8 : RowCell :=
  { values := [("pid", .num 8)], originalValues := [], rowState := .ADDED }

/-- The heap of the relation scenario. -/
def heapPC : Heap := [cellId7, cellPid7, cellPid8]

/-- Parent table `P` with `number` column `id` and the `id = 7` row. -/
def parentTableP : TableSt :=
  { tableName := "P", columns := [mkDataColumn "id" (some "number")], rows := [0],
    caseSensitive := false }

/-- Child table `C` with `number` column `pid` and both child rows. -/
def childTableC : TableSt :=
  { tableName := "C", columns := [mkDataColumn "pid" (some "number")], rows := [1, 2],
    caseSensitive := false }

/-- The relation `r : P.id -> C.pid`. -/
def relationPC : DataRelation :=
  { relationName := "r", parentTableName := "P", parentColumnName := "id",
    childTableName := "C", childColumnName := "pid" }

/-- The dataset holding `P`, `C` and the relation `r`. -/
def datasetPC : DataSetSt :=
  { dataSetName := "d", tables := [("P", parentTableP), ("C", childTableC)],
    relations := [relationPC] }

/-- A column `x` with default value 5, as `columns.add` stores it (ordinal
assigned on an empty table). -/
def columnX : DataColumn := { mkDataColumn "x" none true (.num 5) with ordinal := 0 }

/-- The table obtained by adding `columnX` to a fresh table. -/
def tableX : TableSt :=
  { tableName := "", columns := [columnX], rows := [], caseSensitive := false }

/-- An empty row object, as a zero-column table's `newRow()` creates it. -/
def cellEmpty : RowCell := { values := [], originalValues := [], rowState := .ADDED }

/-- A zero-column table holding the single empty row `cellEmpty`. -/
def tableE : TableSt :=
  { tableName := "e", columns := [], rows := [0], caseSensitive := false }

/-- A view over `tableE` with a `sortBy` sort set (constant derived key). -/
def viewSortedE : ViewSt := { sort := .fnSort (fun _ => .num 0) }

/-- The coercion-failure predicate of `DataRow.set`: whether a (non-null)
value is rejected for a declared data type.  Only the `number` and `date`
branches of the coercion `switch` can throw. -/
def cannotCoerce (dataType : Option String) (v : JsValue) : Bool :=
  match dataType with
  | none => false
  | some dt =>
      match lowerString dt with
      | "number" => (jsToNumber v).isNone
      | "date" =>
          match v with
          | .date _ => false
          | _ => (jsDateParse v).isNone
      | _ => false

/-- Replace the `readOnly` and `unique` flags of a column (used to state
that no write path ever reads them). -/
def setFlags (ro uq : Bool) (c : DataColumn) : DataColumn :=
  { c with readOnly := ro, unique := uq }

/-- Whether a modelled operation threw. -/
def exceptIsError {ε α : Type} : Except ε α → Bool
  | .error _ => true
  | .ok _ => false

/-!
## Heap lemmas
-/

theorem heapRead_append_left (h e : Heap) (a : Nat) (ha : a < h.length) :
    heapRead (h ++ e) a = heapRead h a :=
  List.getD_append h e default a ha

theorem heapRead_append_self (h : Heap) (c : RowCell) :
    heapRead (h ++ [c]) h.length = c := by
  simp [heapRead, List.getD_eq_getElem?_getD]

theorem heapRead_write_self (h : Heap) (a : Nat) (c : RowCell) (ha : a < h.length) :
    heapRead (heapWrite h a c) a = c := by
  simp [heapRead, heapWrite, List.getD_eq_getElem?_getD, List.getElem?_set_self, ha]

theorem heapRead_write_ne (h : Heap) (a b : Nat) (c : RowCell) (hne : a ≠ b) :
    heapRead (heapWrite h a c) b = heapRead h b := by
  simp [heapRead, heapWrite, List.getD_eq_getElem?_getD, List.getElem?_set_ne hne]

theorem heapWrite_length (h : Heap) (a : Nat) (c : RowCell) :
    (heapWrite h a c).length = h.length := by
  simp [heapWrite]

theorem heapWrite_write_self (h : Heap) (a : Nat) (c d : RowCell) :
    heapWrite (heapWrite h a c) a d = heapWrite h a d := by
  simp [heapWrite, List.set_set]

theorem heapWrite_read_self (h : Heap) (a : Nat) :
    heapWrite h a (heapRead h a) = h := by
  induction h generalizing a with
  | nil => rfl
  | cons x rest ih =>
      cases a with
      | zero => rfl
      | succ n =>
          show x :: heapWrite rest n (heapRead rest n) = x :: rest
          rw [ih]

theorem heapWrite_append_self (h : Heap) (x c : RowCell) :
    heapWrite (h ++ [x]) h.length c = h ++ [c] := by
  simp [heapWrite, List.set_append]

/-!
## Value-map lemmas
-/

theorem ValMap.getKey_write_self (vm : ValMap) (k : String) (v : JsValue) :
    (vm.write k v).getKey k = some v := by
  induction vm with
  | nil => simp [ValMap.write, ValMap.getKey]
  | cons kv rest ih =>
      by_cases hk : kv.1 = k
      · simp [ValMap.write, hk, ValMap.getKey]
      · simp [ValMap.write, hk, ValMap.getKey, ih]

theorem ValMap.getKey_write_ne (vm : ValMap) (k j : String) (v : JsValue) (hne : j ≠ k) :
    (vm.write k v).getKey j = vm.getKey j := by
  induction vm with
  | nil => simp [ValMap.write, ValMap.getKey, if_neg (Ne.symm hne)]
  | cons kv rest ih =>
      by_cases hk : kv.1 = k
      · simp [ValMap.write, hk, ValMap.getKey, Ne.symm hne]
      · simp [ValMap.write, hk, ValMap.getKey, ih]

theorem ValMap.read_write_self (vm : ValMap) (k : String) (v : JsValue) :
    (vm.write k v).read k = v := by
  simp [ValMap.read, ValMap.getKey_write_self]

theorem ValMap.read_write_ne (vm : ValMap) (k j : String) (v : JsValue) (hne : j ≠ k) :
    (vm.write k v).read j = vm.read j := by
  simp [ValMap.read, ValMap.getKey_write_ne vm k j v hne]

theorem ValMap.hasKey_iff_mem (vm : ValMap) (k : String) :
    vm.hasKey k = true ↔ k ∈ vm.keyList := by
  induction vm with
  | nil => simp [ValMap.hasKey, ValMap.getKey, ValMap.keyList]
  | cons kv rest ih =>
      by_cases hk : kv.1 = k
      · simp [ValMap.hasKey, ValMap.getKey, hk, ValMap.keyList]
      · have hnk : ¬ k = kv.1 := fun h => hk h.symm
        simp only [ValMap.hasKey, ValMap.getKey, if_neg hk, ValMap.keyList,
          List.map_cons, List.mem_cons, hnk, false_or]
        simpa [ValMap.hasKey, ValMap.keyList] using ih

theorem ValMap.keyList_write (vm : ValMap) (k : String) (v : JsValue) :
    (vm.write k v).keyList =
      if vm.hasKey k then vm.keyList else vm.keyList ++ [k] := by
  induction vm with
  | nil => simp [ValMap.write, ValMap.keyList, ValMap.hasKey, ValMap.getKey]
  | cons kv rest ih =>
      by_cases hk : kv.1 = k
      · simp [ValMap.write, hk, ValMap.keyList, ValMap.hasKey, ValMap.getKey]
      · by_cases hh : (ValMap.getKey rest k).isSome
        · simp only [ValMap.hasKey, hh, if_true] at ih
          simp only [ValMap.write, if_neg hk, ValMap.keyList, List.map_cons,
            ValMap.hasKey, ValMap.getKey, if_neg hk, hh, if_true]
          simpa [ValMap.keyList] using ih
        · simp only [ValMap.hasKey, hh, if_false] at ih
          simp only [ValMap.write, if_neg hk, ValMap.keyList, List.map_cons,
            ValMap.hasKey, ValMap.getKey, if_neg hk, hh, if_false]
          simpa [ValMap.keyList] using ih

theorem ValMap.keyList_del (vm : ValMap) (k : String) :
    (vm.del k).keyList = vm.keyList.filter (fun s => s ≠ k) := by
  induction vm with
  | nil => rfl
  | cons kv rest ih =>
      by_cases hk : kv.1 = k
      · have h1 : ValMap.del (kv :: rest) k = ValMap.del rest k := by
          simp [ValMap.del, List.filter_cons, hk]
        have h2 : ValMap.keyList (kv :: rest) = kv.1 :: ValMap.keyList rest := rfl
        rw [h1, h2, List.filter_cons, ih]
        simp [hk]
      · have h1 : ValMap.del (kv :: rest) k = kv :: ValMap.del rest k := by
          simp [ValMap.del, List.filter_cons, hk]
        have h2 : ValMap.keyList (kv :: ValMap.del rest k) =
            kv.1 :: (ValMap.del rest k).keyList := rfl
        have h3 : ValMap.keyList (kv :: rest) = kv.1 :: ValMap.keyList rest := rfl
        rw [h1, h2, ih, h3, List.filter_cons]
        simp [hk]

/-!
## Claim theorems: error-tolerant removals (C8) and select aliasing (C6)
-/

/-- C8: row removal by an out-of-range index and relation removal by an
unknown name are silent no-ops: the row collection and the relation list
are returned unchanged.  Both modelled operations are total functions — the
source raises no error on either path. -/
theorem claim_C8 (t : TableSt) (i : Int) (ds : DataSetSt) (name : String)
    (hi : ¬ (0 ≤ i ∧ i < (t.rows.length : Int)))
    (hn : ∀ r ∈ ds.relations, r.relationName ≠ name) :
    rowsRemoveAt t i = t ∧ removeRelation ds name = ds := by
  refine ⟨by simp [rowsRemoveAt, hi], ?_⟩
  have hfind : ds.relations.findIdx? (fun r => r.relationName = name) = none := by
    rw [List.findIdx?_eq_none_iff]
    intro r hr
    simp [hn r hr]
  simp [removeRelation, hfind]

/-- C8 witness: a concrete out-of-range removal and unknown relation
removal. -/
theorem claim_C8_witness :
    rowsRemoveAt { tableName := "t", columns := [], rows := [7], caseSensitive := false } 3 =
      { tableName := "t", columns := [], rows := [7], caseSensitive := false } ∧
    removeRelation { dataSetName := "d", tables := [], relations := [] } "r" =
      { dataSetName := "d", tables := [], relations := [] } :=
  claim_C8 _ 3 _ "r" (by decide) (by simp)

/-- C6 counterexample: `select` does not return snapshots.  On the one-row
table `tableA`, `select` returns the reference to the row's own `_values`
object (address 0); after `row.set("a", 2)` the record previously returned
by `select` reads the new value 2, not the value 1 it held when `select`
returned — refuting, at this input, the claim that mutating a row does not
change a record previously returned by `select`. -/
theorem claim_C6_counterexample :
    selectT [cellA1] tableA (fun _ => true) = [0] ∧
    (heapRead [cellA1] 0).values.read "a" = .num 1 ∧
    heapRowSet [cellA1] tableA.columns 0 "a" (.num 2) = .ok [cellA2] ∧
    (heapRead [cellA2] 0).values.read "a" = .num 2 := by
  refine ⟨by decide, by decide, by decide, by decide⟩

/-- C6 amended: `select` returns the live `_values` objects of the matching
rows, not decoupled snapshots — each returned record is one of the table's
own row objects (its address is a member of the row collection and its
values satisfy the predicate), and after a subsequent successful `row.set`
on that row, the previously returned record reads the row's new values. -/
theorem claim_C6_amended (h : Heap) (t : TableSt) (pred : ValMap → Bool) (a : Nat)
    (n : String) (v : JsValue) (c2 : RowCell)
    (hmem : a ∈ selectT h t pred)
    (hcell : cellSet t.columns (heapRead h a) n v = .ok c2)
    (hval : a < h.length) :
    a ∈ t.rows ∧ pred (heapRead h a).values = true ∧
    heapRowSet h t.columns a n v = .ok (heapWrite h a c2) ∧
    heapRead (heapWrite h a c2) a = c2 := by
  have hmem' := hmem
  unfold selectT at hmem'
  rw [List.mem_filter] at hmem'
  refine ⟨hmem'.1, hmem'.2, ?_, heapRead_write_self h a c2 hval⟩
  unfold heapRowSet
  rw [hcell]

/-- C6 amended witness: the concrete one-row scenario run through the
amended statement. -/
theorem claim_C6_amended_witness :
    0 ∈ tableA.rows ∧
    (fun (_ : ValMap) => true) (heapRead [cellA1] 0).values = true ∧
    heapRowSet [cellA1] tableA.columns 0 "a" (.num 2) = .ok (heapWrite [cellA1] 0 cellA2) ∧
    heapRead (heapWrite [cellA1] 0 cellA2) 0 = cellA2 :=
  claim_C6_amended [cellA1] tableA (fun _ => true) 0 "a" (.num 2) cellA2
    (by decide) (by decide) (by decide)

/-- C3: at the specification's own relation scenario, `getChildRows` on the
parent row with `id = 7` does not return the child rows with `pid = 7` — it
throws a `TypeError`, because the callback it hands to `findRows` calls
`row.get(...)` while `findRows` (src/DataTable.js line 201) applies the
callback to each row's plain `_values` object, which has no `get` method.
`getParentRow` fails the same way, and the documented error for an absent
relation name is still raised when the name is unknown. -/
theorem claim_C3_code_bug :
    getChildRows heapPC datasetPC parentTableP.columns 0 "r" = .error .typeError ∧
    getParentRow heapPC datasetPC childTableC.columns 1 "r" = .error .typeError ∧
    getChildRows heapPC datasetPC parentTableP.columns 0 "missing"
      = .error (.relationNotFound "missing") := by
  refine ⟨by rfl, by rfl, by rfl⟩

/-!
## Claim theorem: typed null/number writes (C1)
-/

/-- C1: on any row of a table with a column declared `number` and
`allowNull = false`, `set` of `null` throws the null-validation error —
and, since every throw in `set` precedes the first write, the row is left
unchanged (the error branch returns no updated row) — while `set` of the
string "42" succeeds, stores the coerced number 42 in `_values`, and a
subsequent `get` returns the number 42, not the original string. -/
theorem claim_C1 (cols : List DataColumn) (cell : RowCell) (columnName : String)
    (col : DataColumn) (hfind : findColumn cols columnName = some col)
    (htype : col.dataType = some "number") (hnull : col.allowNull = false) :
    cellSet cols cell columnName .null = .error (.nullNotAllowed columnName) ∧
    ∃ cell2, cellSet cols cell columnName (.str "42") = .ok cell2 ∧
      rowGet cols cell2 columnName = .ok (.num 42) ∧
      cell2.values = cell.values.write columnName (.num 42) ∧
      cell2.rowState = .MODIFIED := by
  have hcontains : containsColumn cols columnName = true := by
    simp [containsColumn, hfind]
  have hco : coerceForColumn col columnName (.str "42") = .ok (.num 42) := by
    unfold coerceForColumn
    rw [htype]
    rfl
  constructor
  · unfold cellSet
    rw [hfind]
    simp [hnull]
  · refine ⟨{ values := cell.values.write columnName (.num 42),
              originalValues := if cell.originalValues.hasKey columnName then
                  cell.originalValues
                else cell.originalValues.write columnName (cell.values.read columnName),
              rowState := .MODIFIED }, ?_, ?_, rfl, rfl⟩
    · unfold cellSet
      rw [hfind]
      simp [hco]
    · simp [rowGet, hcontains, ValMap.read, ValMap.getKey_write_self]

/-- C1 witness: the concrete one-column table run through the claim. -/
theorem claim_C1_witness :
    cellSet [mkDataColumn "a" (some "number") false] cellA1 "a" .null
      = .error (.nullNotAllowed "a") ∧
    ∃ cell2, cellSet [mkDataColumn "a" (some "number") false] cellA1 "a" (.str "42")
        = .ok cell2 ∧
      rowGet [mkDataColumn "a" (some "number") false] cell2 "a" = .ok (.num 42) ∧
      cell2.values = cellA1.values.write "a" (.num 42) ∧
      cell2.rowState = .MODIFIED :=
  claim_C1 [mkDataColumn "a" (some "number") false] cellA1 "a"
    (mkDataColumn "a" (some "number") false) (by decide) (by decide) (by decide)

/-!
## Claim theorems: the error surface of Row.set (C9)
-/

theorem coerceForColumn_isError (col : DataColumn) (n : String) (v : JsValue)
    (hv : v ≠ .null) :
    exceptIsError (coerceForColumn col n v) = cannotCoerce col.dataType v := by
  unfold coerceForColumn cannotCoerce
  rw [if_neg hv]
  cases col.dataType with
  | none => rfl
  | some dt =>
      cases v with
      | null => exact absurd rfl hv
      | undef => (repeat' split) <;> simp_all [jsToNumber, jsDateParse, exceptIsError]
      | num q => (repeat' split) <;> simp_all [jsToNumber, jsDateParse, exceptIsError]
      | bool b => (repeat' split) <;> simp_all [jsToNumber, jsDateParse, exceptIsError]
      | date ms => (repeat' split) <;> simp_all [jsToNumber, jsDateParse, exceptIsError]
      | str s =>
          cases hn : jsStringToNumber s <;> cases hd : isoDateParse s <;>
            (repeat' split) <;> simp_all [jsToNumber, jsDateParse, exceptIsError]

theorem findColumn_map_setFlags (cols : List DataColumn) (n : String) (ro uq : Bool) :
    findColumn (cols.map (setFlags ro uq)) n = (findColumn cols n).map (setFlags ro uq) := by
  induction cols with
  | nil => rfl
  | cons c rest ih =>
      by_cases hc : c.columnName = n
      · simp [findColumn, List.find?_cons, setFlags, hc]
      · simp only [List.map_cons, findColumn] at *
        rw [List.find?_cons_of_neg, List.find?_cons_of_neg] <;>
          simp [setFlags, hc, ih]

theorem cellSet_flags_independent (cols : List DataColumn) (cell : RowCell)
    (n : String) (v : JsValue) (ro uq : Bool) :
    cellSet (cols.map (setFlags ro uq)) cell n v = cellSet cols cell n v := by
  unfold cellSet
  rw [findColumn_map_setFlags]
  cases findColumn cols n with
  | none => rfl
  | some col => rfl

theorem cellSet_error_characterization (cols : List DataColumn) (cell : RowCell)
    (n : String) (v : JsValue) :
    exceptIsError (cellSet cols cell n v) = true ↔
      findColumn cols n = none ∨
        ∃ col, findColumn cols n = some col ∧
          ((v = .null ∧ col.allowNull = false) ∨
            (v ≠ .null ∧ cannotCoerce col.dataType v = true)) := by
  unfold cellSet
  cases hfind : findColumn cols n with
  | none => simp [exceptIsError]
  | some col =>
      simp only [hfind, Option.some.injEq, false_or]
      by_cases hv : v = .null
      · subst hv
        cases hnull : col.allowNull
        · simp [exceptIsError, hnull]
        · simp [exceptIsError, hnull, coerceForColumn]
      · have hif : ¬ (v = .null ∧ col.allowNull = false) := fun hc => hv hc.1
        rw [if_neg hif]
        have hiso := coerceForColumn_isError col n v hv
        cases hco : coerceForColumn col n v with
        | error e =>
            rw [hco] at hiso
            simp only [exceptIsError] at hiso
            simp [exceptIsError, hv, ← hiso]
        | ok c =>
            rw [hco] at hiso
            simp only [exceptIsError] at hiso
            simp [exceptIsError, hv, ← hiso]

/-- C9 counterexample: writing `undefined` to an `allowNull = false` column
does not always succeed — on a `number`-typed column the write passes the
null check (only strict `null` is rejected) but fails the numeric coercion
(`Number(undefined)` is `NaN`), so `set` throws. -/
theorem claim_C9_counterexample :
    cellSet [mkDataColumn "a" (some "number") false] cellA1 "a" .undef
      = .error (.numberCoercion "a") := by decide

/-- C9 amended: `Row.set` throws in exactly three situations — unknown
column, strict `null` into an `allowNull = false` column, or a non-null
value failing coercion to a declared `number`/`date` type (which includes
`undefined`, since `Number(undefined)` and `Date.parse(undefined)` are
`NaN`).  The `readOnly` and `unique` flags are never consulted on the
write path; and writing `undefined` to an `allowNull = false` column does
pass the null check and succeeds whenever the declared type performs no
failing coercion, e.g. on an untyped column. -/
theorem claim_C9_amended (cols : List DataColumn) (cell : RowCell) (n : String)
    (v : JsValue) (ro uq : Bool) :
    (exceptIsError (cellSet cols cell n v) = true ↔
      findColumn cols n = none ∨
        ∃ col, findColumn cols n = some col ∧
          ((v = .null ∧ col.allowNull = false) ∨
            (v ≠ .null ∧ cannotCoerce col.dataType v = true))) ∧
    cellSet (cols.map (setFlags ro uq)) cell n v = cellSet cols cell n v ∧
    (∀ col, findColumn cols n = some col → col.allowNull = false →
      col.dataType = none → ∃ cell2, cellSet cols cell n .undef = .ok cell2) := by
  refine ⟨cellSet_error_characterization cols cell n v,
    cellSet_flags_independent cols cell n v ro uq, ?_⟩
  intro col hfind hnull hdt
  cases hset : cellSet cols cell n .undef with
  | ok c2 => exact ⟨c2, rfl⟩
  | error e =>
      exfalso
      have hchar := (cellSet_error_characterization cols cell n .undef).1
        (by rw [hset]; rfl)
      rcases hchar with hnone | ⟨col2, hfind2, hcases⟩
      · rw [hfind] at hnone
        exact Option.noConfusion hnone
      · rw [hfind] at hfind2
        injection hfind2 with hcol
        subst hcol
        rcases hcases with ⟨h1, _⟩ | ⟨_, h2⟩
        · exact JsValue.noConfusion h1
        · rw [hdt] at h2
          simp [cannotCoerce] at h2

/-- C9 amended witness: on a concrete untyped `allowNull = false` column,
writing `undefined` succeeds. -/
theorem claim_C9_amended_witness :
    ∃ cell2, cellSet [mkDataColumn "a" none false] cellA1 "a" .undef = .ok cell2 :=
  (claim_C9_amended [mkDataColumn "a" none false] cellA1 "a" .null true true).2.2
    (mkDataColumn "a" none false) (by decide) (by decide) (by decide)

/-!
## Claim theorems: addRow with an object argument (C2)
-/

theorem foldl_condWrite_read_notmem (cols : List DataColumn)
    (entries : List (String × JsValue)) (vm : ValMap) (k : String)
    (hnot : k ∉ entries.map (fun kv => kv.1)) :
    (entries.foldl (fun vm kv =>
      if containsColumn cols kv.1 then vm.write kv.1 kv.2 else vm) vm).read k
      = vm.read k := by
  induction entries generalizing vm with
  | nil => rfl
  | cons kv rest ih =>
      simp only [List.map_cons, List.mem_cons, not_or] at hnot
      obtain ⟨h1, h2⟩ := hnot
      rw [List.foldl_cons]
      by_cases hc : containsColumn cols kv.1
      · simp only [hc, if_true]
        rw [ih _ h2]
        exact ValMap.read_write_ne vm kv.1 k kv.2 h1
      · simp only [hc, if_false]
        exact ih vm h2

theorem foldl_condWrite_read_mem (cols : List DataColumn)
    (entries : List (String × JsValue)) (vm : ValMap) (k : String) (v : JsValue)
    (hmem : (k, v) ∈ entries) (hnodup : (entries.map (fun kv => kv.1)).Nodup)
    (hcol : containsColumn cols k = true) :
    (entries.foldl (fun vm kv =>
      if containsColumn cols kv.1 then vm.write kv.1 kv.2 else vm) vm).read k = v := by
  induction entries generalizing vm with
  | nil => cases hmem
  | cons kv rest ih =>
      simp only [List.map_cons, List.nodup_cons] at hnodup
      rw [List.foldl_cons]
      rcases List.mem_cons.mp hmem with heq | hmem2
      · obtain rfl : kv = (k, v) := heq.symm
        simp only [hcol, if_true]
        rw [foldl_condWrite_read_notmem cols rest _ k hnodup.1]
        exact ValMap.read_write_self vm k v
      · have hkmem : k ∈ rest.map (fun kv => kv.1) :=
          List.mem_map.mpr ⟨(k, v), hmem2, rfl⟩
        have hne : k ≠ kv.1 := fun hk => hnodup.1 (hk ▸ hkmem)
        by_cases hc : containsColumn cols kv.1
        · simp only [hc, if_true]
          exact ih _ hmem2 hnodup.2
        · simp only [hc, if_false]
          exact ih vm hmem2 hnodup.2

theorem foldl_condWrite_getKey_notcol (cols : List DataColumn)
    (entries : List (String × JsValue)) (vm : ValMap) (k : String)
    (hk : containsColumn cols k = false) :
    (entries.foldl (fun vm kv =>
      if containsColumn cols kv.1 then vm.write kv.1 kv.2 else vm) vm).getKey k
      = vm.getKey k := by
  induction entries generalizing vm with
  | nil => rfl
  | cons kv rest ih =>
      rw [List.foldl_cons]
      by_cases hc : containsColumn cols kv.1
      · have hne : k ≠ kv.1 := fun heq => by rw [heq, hc] at hk; cases hk
        simp only [hc, if_true]
        rw [ih]
        exact ValMap.getKey_write_ne vm kv.1 k kv.2 hne
      · simp only [hc, if_false]
        exact ih vm

theorem foldl_write_defaults_read_notmem (cols : List DataColumn) (vm : ValMap)
    (k : String) (hnot : k ∉ cols.map (fun c => c.columnName)) :
    (cols.foldl (fun vm c => vm.write c.columnName c.defaultValue) vm).read k
      = vm.read k := by
  induction cols generalizing vm with
  | nil => rfl
  | cons c rest ih =>
      simp only [List.map_cons, List.mem_cons, not_or] at hnot
      rw [List.foldl_cons, ih _ hnot.2]
      exact ValMap.read_write_ne vm c.columnName k c.defaultValue hnot.1

theorem foldl_write_defaults_read_mem (cols : List DataColumn) (vm : ValMap)
    (col : DataColumn) (hmem : col ∈ cols)
    (hnodup : (cols.map (fun c => c.columnName)).Nodup) :
    (cols.foldl (fun vm c => vm.write c.columnName c.defaultValue) vm).read col.columnName
      = col.defaultValue := by
  induction cols generalizing vm with
  | nil => cases hmem
  | cons c rest ih =>
      simp only [List.map_cons, List.nodup_cons] at hnodup
      rw [List.foldl_cons]
      rcases List.mem_cons.mp hmem with heq | hmem2
      · subst heq
        rw [foldl_write_defaults_read_notmem rest _ col.columnName hnodup.1]
        exact ValMap.read_write_self vm col.columnName col.defaultValue
      · exact ih _ hmem2 hnodup.2

/-- `new DataRow(table)` holds every column at its declared default. -/
theorem newRowCell_read (cols : List DataColumn) (col : DataColumn)
    (hmem : col ∈ cols) (hnodup : (cols.map (fun c => c.columnName)).Nodup) :
    (newRowCell cols).values.read col.columnName = col.defaultValue :=
  foldl_write_defaults_read_mem cols [] col hmem hnodup

/-- C2 counterexample: `addRow` with an object does not run `Row.set`
semantics.  On a table whose only column `a` is `number`-typed with
`allowNull = false`, adding `a = "42"` stores the raw string (not the
number 42 a `set` would have stored), and adding `a = null` raises no
error and stores the raw null (a `set` would have thrown NullNotAllowed);
the row is appended in both cases.  The unknown key `junk` is ignored. -/
theorem claim_C2_counterexample :
    (heapRead (rowsAddObj [] tableNum [("a", .str "42"), ("junk", .num 1)]).2.1 0).values
      = [("a", .str "42")] ∧
    (heapRead (rowsAddObj [] tableNum [("a", .str "42"), ("junk", .num 1)]).2.1 0).values.read "a"
      ≠ .num 42 ∧
    (heapRead (rowsAddObj [] tableNum [("a", .null)]).2.1 0).values = [("a", .null)] ∧
    (rowsAddObj [] tableNum [("a", .null)]).2.2.rows = [0] := by
  refine ⟨by decide, by decide, by decide, by decide⟩

/-- C2 amended: `addRow` with a mapping appends and returns a fresh row in
which keys that are not current column names are silently ignored, while
every known key's value is stored RAW into the row's value map — with no
type coercion and no null validation (so a `null` into an
`allowNull = false` column is accepted as-is) — and every column the
mapping does not mention keeps its declared default. -/
theorem claim_C2_amended (h : Heap) (t : TableSt) (entries : List (String × JsValue))
    (hnodup : (entries.map (fun kv => kv.1)).Nodup)
    (hcols : (t.columns.map (fun c => c.columnName)).Nodup) :
    (rowsAddObj h t entries).1 = h.length ∧
    (rowsAddObj h t entries).2.2.rows = t.rows ++ [h.length] ∧
    (rowsAddObj h t entries).2.2.columns = t.columns ∧
    (∀ k v, (k, v) ∈ entries → containsColumn t.columns k = true →
      (heapRead (rowsAddObj h t entries).2.1 h.length).values.read k = v) ∧
    (∀ k, containsColumn t.columns k = false →
      (heapRead (rowsAddObj h t entries).2.1 h.length).values.getKey k
        = (newRowCell t.columns).values.getKey k) ∧
    (∀ col ∈ t.columns, col.columnName ∉ entries.map (fun kv => kv.1) →
      (heapRead (rowsAddObj h t entries).2.1 h.length).values.read col.columnName
        = col.defaultValue) := by
  have hcell : (heapRead (rowsAddObj h t entries).2.1 h.length).values
      = entries.foldl (fun vm kv =>
          if containsColumn t.columns kv.1 then vm.write kv.1 kv.2 else vm)
        (newRowCell t.columns).values := by
    unfold rowsAddObj heapAlloc
    exact congrArg RowCell.values (heapRead_append_self h _)
  refine ⟨rfl, rfl, rfl, ?_, ?_, ?_⟩
  · intro k v hmem hcol
    rw [hcell]
    exact foldl_condWrite_read_mem t.columns entries _ k v hmem hnodup hcol
  · intro k hk
    rw [hcell]
    exact foldl_condWrite_getKey_notcol t.columns entries _ k hk
  · intro col hmemc hnot
    rw [hcell]
    rw [show (newRowCell t.columns).values
        = t.columns.foldl (fun (vm : ValMap) c => vm.write c.columnName c.defaultValue)
          ([] : ValMap) from rfl]
    rw [foldl_condWrite_read_notmem t.columns entries _ col.columnName hnot]
    exact foldl_write_defaults_read_mem t.columns [] col hmemc hcols

/-- C2 amended witness: the concrete table and mapping run through the
amended statement — the known key keeps its raw string, the unknown key is
ignored, and the row is appended. -/
theorem claim_C2_amended_witness :
    (rowsAddObj [] tableNum [("a", .str "42"), ("junk", .num 1)]).1 = 0 ∧
    (rowsAddObj [] tableNum [("a", .str "42"), ("junk", .num 1)]).2.2.rows = [0] ∧
    (heapRead (rowsAddObj [] tableNum [("a", .str "42"), ("junk", .num 1)]).2.1 0).values.read "a"
      = .str "42" ∧
    (heapRead (rowsAddObj [] tableNum [("a", .str "42"), ("junk", .num 1)]).2.1 0).values.getKey "junk"
      = (newRowCell tableNum.columns).values.getKey "junk" := by
  have hthm := claim_C2_amended [] tableNum [("a", .str "42"), ("junk", .num 1)]
    (by decide) (by decide)
  exact ⟨hthm.1, hthm.2.1, hthm.2.2.2.1 "a" (.str "42") (by decide) (by decide),
    hthm.2.2.2.2.1 "junk" (by decide)⟩

/-!
## Invariant preservation machinery (C4, C5)
-/

theorem ValMap.write_write_self (vm : ValMap) (k : String) (v : JsValue) :
    (vm.write k v).write k v = vm.write k v := by
  induction vm with
  | nil => simp [ValMap.write]
  | cons kv rest ih =>
      by_cases hk : kv.1 = k
      · simp [ValMap.write, hk]
      · simp [ValMap.write, hk, ih]

theorem ValMap.del_del (vm : ValMap) (k : String) :
    (vm.del k).del k = vm.del k := by
  unfold ValMap.del
  rw [List.filter_filter]
  simp

theorem containsColumn_iff_mem (cols : List DataColumn) (n : String) :
    containsColumn cols n = true ↔ n ∈ cols.map (fun c => c.columnName) := by
  induction cols with
  | nil => simp [containsColumn, findColumn]
  | cons c rest ih =>
      by_cases hc : c.columnName = n
      · simp [containsColumn, findColumn, List.find?_cons_of_pos, hc]
      · rw [show containsColumn (c :: rest) n = containsColumn rest n by
            simp [containsColumn, findColumn, List.find?_cons_of_neg, hc]]
        have hnc : ¬ n = c.columnName := fun hh => hc hh.symm
        simp [ih, hnc]

theorem foldl_heapWrite_length (f : RowCell → RowCell) (rows : List Nat) (h : Heap) :
    (rows.foldl (fun hh a => heapWrite hh a (f (heapRead hh a))) h).length = h.length := by
  induction rows generalizing h with
  | nil => rfl
  | cons a rest ih => rw [List.foldl_cons, ih, heapWrite_length]

theorem foldl_heapWrite_read (f : RowCell → RowCell) (hf : ∀ c, f (f c) = f c)
    (rows : List Nat) (h : Heap) (b : Nat) (hb : b < h.length) :
    heapRead (rows.foldl (fun hh a => heapWrite hh a (f (heapRead hh a))) h) b =
      if b ∈ rows then f (heapRead h b) else heapRead h b := by
  induction rows generalizing h with
  | nil => simp
  | cons a rest ih =>
      rw [List.foldl_cons]
      have hlen : b < (heapWrite h a (f (heapRead h a))).length := by
        rw [heapWrite_length]; exact hb
      rw [ih _ hlen]
      by_cases hba : b = a
      · subst hba
        rw [heapRead_write_self h b _ hb]
        by_cases hbr : b ∈ rest
        · simp [hbr, hf]
        · simp [hbr]
      · rw [heapRead_write_ne h a b _ (fun hh => hba hh.symm)]
        by_cases hbr : b ∈ rest
        · simp [hbr, hba]
        · simp [hbr, hba]

theorem renumberColumns_names (start : Nat) (cols : List DataColumn) :
    (renumberColumns start cols).map (fun c => c.columnName)
      = cols.map (fun c => c.columnName) := by
  induction cols generalizing start with
  | nil => rfl
  | cons c rest ih => simp [renumberColumns, ih]

theorem renumberColumns_length (start : Nat) (cols : List DataColumn) :
    (renumberColumns start cols).length = cols.length := by
  induction cols generalizing start with
  | nil => rfl
  | cons c rest ih => simp [renumberColumns, ih]

theorem renumberColumns_ordinals (start : Nat) (cols : List DataColumn) :
    (renumberColumns start cols).map (fun c => c.ordinal)
      = (List.range' start cols.length).map Int.ofNat := by
  induction cols generalizing start with
  | nil => rfl
  | cons c rest ih => simp [renumberColumns, List.range', ih]

theorem map_name_filter (cols : List DataColumn) (n : String) :
    (cols.filter (fun c => c.columnName ≠ n)).map (fun c => c.columnName)
      = (cols.map (fun c => c.columnName)).filter (fun s => s ≠ n) := by
  induction cols with
  | nil => rfl
  | cons c rest ih =>
      simp only [ne_eq, decide_not] at ih
      by_cases hc : c.columnName = n
      · simp [List.filter_cons, hc, ih]
      · simp [List.filter_cons, hc, ih]

theorem foldl_write_keyList_sub (pairs : List (String × JsValue)) (vm : ValMap)
    (hsub : ∀ k ∈ pairs.map (fun kv => kv.1), k ∈ vm.keyList) :
    (pairs.foldl (fun vm kv => vm.write kv.1 kv.2) vm).keyList = vm.keyList := by
  induction pairs generalizing vm with
  | nil => rfl
  | cons kv rest ih =>
      rw [List.foldl_cons]
      have hk : vm.hasKey kv.1 = true :=
        (ValMap.hasKey_iff_mem vm kv.1).mpr (hsub kv.1 (by simp))
      have hkl : (vm.write kv.1 kv.2).keyList = vm.keyList := by
        rw [ValMap.keyList_write, hk, if_pos rfl]
      rw [ih _ (fun k hkmem => by rw [hkl]; exact hsub k (by simp [hkmem])), hkl]

theorem foldl_condWrite_keyList (cols : List DataColumn)
    (entries : List (String × JsValue)) (vm : ValMap)
    (hsub : ∀ n, containsColumn cols n = true → n ∈ vm.keyList) :
    (entries.foldl (fun vm kv =>
      if containsColumn cols kv.1 then vm.write kv.1 kv.2 else vm) vm).keyList
      = vm.keyList := by
  induction entries generalizing vm with
  | nil => rfl
  | cons kv rest ih =>
      rw [List.foldl_cons]
      by_cases hc : containsColumn cols kv.1
      · simp only [hc, if_true]
        have hk : vm.hasKey kv.1 = true :=
          (ValMap.hasKey_iff_mem vm kv.1).mpr (hsub kv.1 hc)
        have hkl : (vm.write kv.1 kv.2).keyList = vm.keyList := by
          rw [ValMap.keyList_write, hk, if_pos rfl]
        rw [ih _ (fun n hn => by rw [hkl]; exact hsub n hn), hkl]
      · simp only [hc, if_false]
        exact ih vm hsub

theorem foldl_write_defaults_keyList (cols : List DataColumn) (vm : ValMap)
    (hnodup : (cols.map (fun c => c.columnName)).Nodup)
    (hdisj : ∀ c ∈ cols, c.columnName ∉ vm.keyList) :
    (cols.foldl (fun vm c => vm.write c.columnName c.defaultValue) vm).keyList
      = vm.keyList ++ cols.map (fun c => c.columnName) := by
  induction cols generalizing vm with
  | nil => simp
  | cons c rest ih =>
      simp only [List.map_cons, List.nodup_cons] at hnodup
      rw [List.foldl_cons]
      have hnk : vm.hasKey c.columnName = false := by
        cases hv : vm.hasKey c.columnName
        · rfl
        · exact absurd ((ValMap.hasKey_iff_mem vm c.columnName).mp hv)
            (hdisj c (by simp))
      have hkl : (vm.write c.columnName c.defaultValue).keyList
          = vm.keyList ++ [c.columnName] := by
        rw [ValMap.keyList_write, hnk]
        simp
      rw [ih _ hnodup.2, hkl]
      · simp
      · intro c2 hc2
        rw [hkl]
        simp only [List.mem_append, List.mem_singleton, not_or]
        refine ⟨hdisj c2 (by simp [hc2]), ?_⟩
        intro heq
        exact hnodup.1 (heq ▸ List.mem_map.mpr ⟨c2, hc2, rfl⟩)

theorem newRowCell_keyList (cols : List DataColumn)
    (hnodup : (cols.map (fun c => c.columnName)).Nodup) :
    (newRowCell cols).values.keyList = cols.map (fun c => c.columnName) := by
  unfold newRowCell
  rw [foldl_write_defaults_keyList cols [] hnodup (fun c _ => by simp [ValMap.keyList])]
  rfl

theorem positionalPairs_keys (vals : List JsValue) (i : Nat) (cols : List DataColumn) :
    (positionalPairs vals i cols).map (fun kv => kv.1) = cols.map (fun c => c.columnName) := by
  induction cols generalizing i with
  | nil => rfl
  | cons c rest ih => simp [positionalPairs, ih]

theorem cellSet_ok_shape (cols : List DataColumn) (cell : RowCell) (n : String)
    (v : JsValue) (c2 : RowCell) (hok : cellSet cols cell n v = .ok c2) :
    containsColumn cols n = true ∧ ∃ w, c2.values = cell.values.write n w ∧
      c2.rowState = .MODIFIED := by
  unfold cellSet at hok
  cases hfind : findColumn cols n with
  | none => rw [hfind] at hok; cases hok
  | some col =>
      simp only [hfind] at hok
      refine ⟨by simp [containsColumn, hfind], ?_⟩
      by_cases hc : v = .null ∧ col.allowNull = false
      · rw [if_pos hc] at hok; cases hok
      · rw [if_neg hc] at hok
        cases hco : coerceForColumn col n v with
        | error e => rw [hco] at hok; cases hok
        | ok w =>
            rw [hco] at hok
            injection hok with hok
            exact ⟨w, by rw [← hok], by rw [← hok]⟩

theorem tableInvariant_applyOp (st : Heap × TableSt) (op : TableOp)
    (hinv : tableInvariant st.1 st.2) :
    tableInvariant (applyTableOp st op).1 (applyTableOp st op).2 := by
  obtain ⟨h, t⟩ := st
  obtain ⟨hnames, hords, hval, hkeys⟩ := hinv
  replace hnames : (t.columns.map (fun c => c.columnName)).Nodup := hnames
  replace hords : t.columns.map (fun c => c.ordinal)
      = (List.range t.columns.length).map Int.ofNat := hords
  replace hval : ∀ a ∈ t.rows, a < h.length := hval
  replace hkeys : ∀ a ∈ t.rows,
      (heapRead h a).values.keyList = t.columns.map (fun c => c.columnName) := hkeys
  cases op with
  | addCol col =>
      cases hc : containsColumn t.columns col.columnName with
      | true =>
          simp only [applyTableOp, columnsAdd, hc, if_true]
          exact ⟨hnames, hords, hval, hkeys⟩
      | false =>
          have hne : col.columnName ∉ t.columns.map (fun c => c.columnName) := by
            intro hmem
            rw [(containsColumn_iff_mem t.columns col.columnName).mpr hmem] at hc
            cases hc
          simp only [applyTableOp, columnsAdd, hc, Bool.false_eq_true, if_false]
          have hlen : (t.rows.foldl (fun hh a =>
              heapWrite hh a
                (let c := heapRead hh a
                 { c with values := c.values.write col.columnName col.defaultValue })) h).length
              = h.length :=
            foldl_heapWrite_length
              (fun c => { c with values := c.values.write col.columnName col.defaultValue })
              t.rows h
          refine ⟨?_, ?_, ?_, ?_⟩
          · simp only [List.map_append, List.map_cons, List.map_nil]
            simp [List.nodup_append, hnames, hne]
          · simp only [List.map_append, List.map_cons, List.map_nil, List.length_append,
              List.length_cons, List.length_nil]
            rw [hords, show t.columns.length + (0 + 1) = t.columns.length + 1 by omega,
              List.range_succ]
            simp
          · intro a ha
            rw [hlen]
            exact hval a ha
          · intro a ha
            have hread := foldl_heapWrite_read
              (fun c => { c with values := c.values.write col.columnName col.defaultValue })
              (fun c => by simp [ValMap.write_write_self]) t.rows h a (hval a ha)
            rw [show (t.rows.foldl (fun hh a =>
                heapWrite hh a
                  (let c := heapRead hh a
                   { c with values := c.values.write col.columnName col.defaultValue })) h)
                = (t.rows.foldl (fun hh a =>
                heapWrite hh a
                  ((fun c => { c with values := c.values.write col.columnName col.defaultValue })
                    (heapRead hh a))) h) from rfl, hread, if_pos ha]
            have hnk : (heapRead h a).values.hasKey col.columnName = false := by
              cases hv : (heapRead h a).values.hasKey col.columnName
              · rfl
              · exact absurd (hkeys a ha ▸ (ValMap.hasKey_iff_mem _ _).mp hv) hne
            simp only [ValMap.keyList_write, hnk, Bool.false_eq_true, if_false,
              hkeys a ha, List.map_append, List.map_cons, List.map_nil]
  | removeCol n =>
      cases hc : containsColumn t.columns n with
      | false =>
          simp only [applyTableOp, columnsRemove, hc, Bool.false_eq_true, if_false]
          exact ⟨hnames, hords, hval, hkeys⟩
      | true =>
          simp only [applyTableOp, columnsRemove, hc, if_true]
          have hlen : (t.rows.foldl (fun hh a =>
              heapWrite hh a
                (let c := heapRead hh a
                 { c with values := c.values.del n })) h).length = h.length :=
            foldl_heapWrite_length (fun c => { c with values := c.values.del n }) t.rows h
          refine ⟨?_, ?_, ?_, ?_⟩
          · rw [renumberColumns_names, map_name_filter]
            exact hnames.filter _
          · rw [renumberColumns_ordinals, renumberColumns_length, List.range_eq_range']
          · intro a ha
            rw [hlen]
            exact hval a ha
          · intro a ha
            have hread := foldl_heapWrite_read
              (fun c => { c with values := c.values.del n })
              (fun c => by simp [ValMap.del_del]) t.rows h a (hval a ha)
            rw [show (t.rows.foldl (fun hh a =>
                heapWrite hh a
                  (let c := heapRead hh a
                   { c with values := c.values.del n })) h)
                = (t.rows.foldl (fun hh a =>
                heapWrite hh a
                  ((fun c => { c with values := c.values.del n })
                    (heapRead hh a))) h) from rfl, hread, if_pos ha]
            simp only [ValMap.keyList_del, hkeys a ha, renumberColumns_names, map_name_filter]
  | addRowObj entries =>
      have hrw : applyTableOp (h, t) (.addRowObj entries)
          = (h ++ [rowsAddObjCell t.columns entries],
             { t with rows := t.rows ++ [h.length] }) := rfl
      rw [hrw]
      refine ⟨hnames, hords, ?_, ?_⟩
      · intro a ha
        simp only [List.length_append, List.length_cons, List.length_nil]
        rcases List.mem_append.mp ha with hmem | hmem
        · have := hval a hmem
          omega
        · simp only [List.mem_singleton] at hmem
          omega
      · intro a ha
        rcases List.mem_append.mp ha with hmem | hmem
        · rw [heapRead_append_left h _ a (hval a hmem)]
          exact hkeys a hmem
        · simp only [List.mem_singleton] at hmem
          subst hmem
          rw [heapRead_append_self]
          have hsub : ∀ n, containsColumn t.columns n = true →
              n ∈ (newRowCell t.columns).values.keyList := by
            intro n hn
            rw [newRowCell_keyList t.columns hnames]
            exact (containsColumn_iff_mem t.columns n).mp hn
          have hfold := foldl_condWrite_keyList t.columns entries
            (newRowCell t.columns).values hsub
          rw [show (rowsAddObjCell t.columns entries).values
              = entries.foldl (fun vm kv =>
                  if containsColumn t.columns kv.1 then vm.write kv.1 kv.2 else vm)
                (newRowCell t.columns).values from rfl, hfold,
            newRowCell_keyList t.columns hnames]
  | addRowArr vals =>
      have hrw : applyTableOp (h, t) (.addRowArr vals)
          = (h ++ [rowsAddArrCell t.columns vals],
             { t with rows := t.rows ++ [h.length] }) := rfl
      rw [hrw]
      refine ⟨hnames, hords, ?_, ?_⟩
      · intro a ha
        simp only [List.length_append, List.length_cons, List.length_nil]
        rcases List.mem_append.mp ha with hmem | hmem
        · have := hval a hmem
          omega
        · simp only [List.mem_singleton] at hmem
          omega
      · intro a ha
        rcases List.mem_append.mp ha with hmem | hmem
        · rw [heapRead_append_left h _ a (hval a hmem)]
          exact hkeys a hmem
        · simp only [List.mem_singleton] at hmem
          subst hmem
          rw [heapRead_append_self]
          have hsub : ∀ k ∈ (positionalPairs vals 0 t.columns).map (fun kv => kv.1),
              k ∈ (newRowCell t.columns).values.keyList := by
            intro k hk
            rw [positionalPairs_keys] at hk
            rw [newRowCell_keyList t.columns hnames]
            exact hk
          have hfold := foldl_write_keyList_sub (positionalPairs vals 0 t.columns)
            (newRowCell t.columns).values hsub
          rw [show (rowsAddArrCell t.columns vals).values
              = (positionalPairs vals 0 t.columns).foldl
                  (fun vm kv => vm.write kv.1 kv.2)
                (newRowCell t.columns).values from rfl, hfold,
            newRowCell_keyList t.columns hnames]
  | addRowNew =>
      have hrw : applyTableOp (h, t) .addRowNew
          = (h ++ [newRowCell t.columns], { t with rows := t.rows ++ [h.length] }) := rfl
      rw [hrw]
      refine ⟨hnames, hords, ?_, ?_⟩
      · intro a ha
        simp only [List.length_append, List.length_cons, List.length_nil]
        rcases List.mem_append.mp ha with hmem | hmem
        · have := hval a hmem
          omega
        · simp only [List.mem_singleton] at hmem
          omega
      · intro a ha
        rcases List.mem_append.mp ha with hmem | hmem
        · rw [heapRead_append_left h _ a (hval a hmem)]
          exact hkeys a hmem
        · simp only [List.mem_singleton] at hmem
          subst hmem
          rw [heapRead_append_self]
          exact newRowCell_keyList t.columns hnames
  | setRow i name v =>
      cases hget : t.rows.get? i with
      | none =>
          simp only [applyTableOp, hget]
          exact ⟨hnames, hords, hval, hkeys⟩
      | some a =>
          cases hcs : cellSet t.columns (heapRead h a) name v with
          | error e =>
              have hrw : applyTableOp (h, t) (.setRow i name v) = (h, t) := by
                simp only [applyTableOp, hget, heapRowSet, hcs]
              rw [hrw]
              exact ⟨hnames, hords, hval, hkeys⟩
          | ok c2 =>
              have hrw : applyTableOp (h, t) (.setRow i name v)
                  = (heapWrite h a c2, t) := by
                simp only [applyTableOp, hget, heapRowSet, hcs]
              rw [hrw]
              have hamem : a ∈ t.rows := List.get?_mem hget
              obtain ⟨hcont, w, hw, _⟩ := cellSet_ok_shape t.columns (heapRead h a) name v c2 hcs
              refine ⟨hnames, hords, ?_, ?_⟩
              · intro b hb
                rw [heapWrite_length]
                exact hval b hb
              · intro b hb
                by_cases hba : b = a
                · subst hba
                  rw [heapRead_write_self h b c2 (hval b hb), hw, ValMap.keyList_write]
                  have hk : (heapRead h b).values.hasKey name = true := by
                    rw [ValMap.hasKey_iff_mem, hkeys b hb]
                    exact (containsColumn_iff_mem t.columns name).mp hcont
                  rw [hk, if_pos rfl]
                  exact hkeys b hb
                · rw [heapRead_write_ne h a b c2 (fun hh => hba hh.symm)]
                  exact hkeys b hb
  | removeRowAt i =>
      by_cases hb : 0 ≤ i ∧ i < (t.rows.length : Int)
      · have hrw : applyTableOp (h, t) (.removeRowAt i)
            = (h, { t with rows := t.rows.eraseIdx i.toNat }) := by
          simp only [applyTableOp, rowsRemoveAt, if_pos hb]
        rw [hrw]
        refine ⟨hnames, hords, ?_, ?_⟩
        · intro a ha
          exact hval a ((List.eraseIdx_sublist t.rows i.toNat).subset ha)
        · intro a ha
          exact hkeys a ((List.eraseIdx_sublist t.rows i.toNat).subset ha)
      · have hrw : applyTableOp (h, t) (.removeRowAt i) = (h, t) := by
          simp only [applyTableOp, rowsRemoveAt, if_neg hb]
        rw [hrw]
        exact ⟨hnames, hords, hval, hkeys⟩
  | clearRows =>
      refine ⟨hnames, hords, ?_, ?_⟩
      · intro a ha
        cases ha
      · intro a ha
        cases ha

theorem ValMap.getKey_del_self (vm : ValMap) (k : String) :
    (vm.del k).getKey k = none := by
  induction vm with
  | nil => rfl
  | cons kv rest ih =>
      by_cases hk : kv.1 = k
      · simpa [ValMap.del, List.filter_cons, hk] using ih
      · simpa [ValMap.del, List.filter_cons, hk, ValMap.getKey] using ih

theorem tableInvariant_applyOps (ops : List TableOp) (st : Heap × TableSt)
    (hinv : tableInvariant st.1 st.2) :
    tableInvariant (applyTableOps ops st).1 (applyTableOps ops st).2 := by
  induction ops generalizing st with
  | nil => exact hinv
  | cons op rest ih =>
      rw [show applyTableOps (op :: rest) st
          = applyTableOps rest (applyTableOp st op) from rfl]
      exact ih _ (tableInvariant_applyOp st op hinv)

theorem tableInvariant_start : tableInvariant [] (newDataTable "") := by
  refine ⟨by simp [newDataTable], by simp [newDataTable], ?_, ?_⟩ <;>
    intro a ha <;> cases ha

/-- C4: after any interleaved sequence of table operations on a fresh table
(in particular any sequence of column adds and removes), the surviving
columns' ordinals are exactly 0..N-1 in the collection's iteration order,
and column names are unique within the table. -/
theorem claim_C4 (ops : List TableOp) :
    ((applyTableOps ops ([], newDataTable "")).2.columns.map
        (fun c => c.columnName)).Nodup ∧
    (applyTableOps ops ([], newDataTable "")).2.columns.map (fun c => c.ordinal)
      = (List.range (applyTableOps ops ([], newDataTable "")).2.columns.length).map
          Int.ofNat := by
  have hinv := tableInvariant_applyOps ops ([], newDataTable "") tableInvariant_start
  exact ⟨hinv.1, hinv.2.1⟩

/-- C5: adding a column back-fills its default value into every existing
row of the table; a row created after the add holds the new column at its
default; removing a column deletes that key from every existing row; and in
every state reachable by table operations from a fresh table, every row's
value-map key list equals the table's current column-name list. -/
theorem claim_C5 (h : Heap) (t : TableSt) (col : DataColumn) (name : String)
    (ops : List TableOp) (hinv : tableInvariant h t) :
    (∀ c2 h2 t2, columnsAdd h t col = .ok (c2, h2, t2) →
      ∀ a ∈ t.rows, (heapRead h2 a).values
          = (heapRead h a).values.write col.columnName col.defaultValue ∧
        (heapRead h2 a).values.read col.columnName = col.defaultValue) ∧
    (∀ c2 h2 t2, columnsAdd h t col = .ok (c2, h2, t2) →
      (newRowCell t2.columns).values.read col.columnName = col.defaultValue) ∧
    (∀ h2 t2, columnsRemove h t name = .ok (h2, t2) →
      ∀ a ∈ t.rows, (heapRead h2 a).values = (heapRead h a).values.del name ∧
        (heapRead h2 a).values.getKey name = none) ∧
    (∀ a ∈ (applyTableOps ops ([], newDataTable "")).2.rows,
      (heapRead (applyTableOps ops ([], newDataTable "")).1 a).values.keyList
        = (applyTableOps ops ([], newDataTable "")).2.columns.map
            (fun c => c.columnName)) := by
  obtain ⟨hnames, hords, hval, hkeys⟩ := hinv
  refine ⟨?_, ?_, ?_, ?_⟩
  · intro c2 h2 t2 hok a ha
    unfold columnsAdd at hok
    cases hc : containsColumn t.columns col.columnName with
    | true => rw [hc] at hok; cases hok
    | false =>
        rw [hc] at hok
        simp only [Bool.false_eq_true, if_false, Except.ok.injEq, Prod.mk.injEq] at hok
        obtain ⟨-, hh2, -⟩ := hok
        have hread := foldl_heapWrite_read
          (fun c => { c with values := c.values.write col.columnName col.defaultValue })
          (fun c => by simp [ValMap.write_write_self]) t.rows h a (hval a ha)
        rw [if_pos ha] at hread
        have hgoal : heapRead h2 a
            = { values := (heapRead h a).values.write col.columnName col.defaultValue,
                originalValues := (heapRead h a).originalValues,
                rowState := (heapRead h a).rowState } := by
          rw [← hh2]
          exact hread
        rw [hgoal]
        exact ⟨rfl, ValMap.read_write_self _ _ _⟩
  · intro c2 h2 t2 hok
    unfold columnsAdd at hok
    cases hc : containsColumn t.columns col.columnName with
    | true => rw [hc] at hok; cases hok
    | false =>
        rw [hc] at hok
        simp only [Bool.false_eq_true, if_false, Except.ok.injEq, Prod.mk.injEq] at hok
        obtain ⟨-, -, ht2⟩ := hok
        have hne : col.columnName ∉ t.columns.map (fun c => c.columnName) := by
          intro hmem
          rw [(containsColumn_iff_mem t.columns col.columnName).mpr hmem] at hc
          cases hc
        have hnodup2 : (t2.columns.map (fun c => c.columnName)).Nodup := by
          rw [← ht2]
          simp only [List.map_append, List.map_cons, List.map_nil]
          simp [List.nodup_append, hnames, hne]
        have hmem2 : ({ col with ordinal := (t.columns.length : Int) } : DataColumn)
            ∈ t2.columns := by
          rw [← ht2]
          simp
        exact newRowCell_read t2.columns
          { col with ordinal := (t.columns.length : Int) } hmem2 hnodup2
  · intro h2 t2 hok a ha
    unfold columnsRemove at hok
    cases hc : containsColumn t.columns name with
    | false => rw [hc] at hok; cases hok
    | true =>
        rw [hc] at hok
        simp only [if_true, Except.ok.injEq, Prod.mk.injEq] at hok
        obtain ⟨hh2, -⟩ := hok
        have hread := foldl_heapWrite_read
          (fun c => { c with values := c.values.del name })
          (fun c => by simp [ValMap.del_del]) t.rows h a (hval a ha)
        rw [if_pos ha] at hread
        have hgoal : heapRead h2 a
            = { values := (heapRead h a).values.del name,
                originalValues := (heapRead h a).originalValues,
                rowState := (heapRead h a).rowState } := by
          rw [← hh2]
          exact hread
        rw [hgoal]
        exact ⟨rfl, ValMap.getKey_del_self _ _⟩
  · exact (tableInvariant_applyOps ops ([], newDataTable "") tableInvariant_start).2.2.2

/-- C5 witness: adding column `x` (default 5) to a fresh table and creating
a row afterwards yields a row holding 5 in `x`. -/
theorem claim_C5_witness :
    (newRowCell tableX.columns).values.read "x" = .num 5 :=
  (claim_C5 [] (newDataTable "") (mkDataColumn "x" none true (.num 5)) "x" []
      (by decide)).2.1
    columnX [] tableX (by decide)

/-!
## DataView simulation lemmas (C7, C10)

`getRowsT` works on heap addresses; the lemmas below relate each stage to
its heap-free counterpart, so that the observable output is shown to be a
function of the snapshot of the backing table's row cells alone.
-/

theorem map_heapRead_filter (h : Heap) (rows : List Nat) (p : RowCell → Bool) :
    (rows.filter (fun a => p (heapRead h a))).map (heapRead h)
      = (rows.map (heapRead h)).filter p := by
  induction rows with
  | nil => rfl
  | cons a rest ih =>
      by_cases hp : p (heapRead h a)
      · simp [List.filter_cons, hp, ih]
      · simp [List.filter_cons, hp, ih]

theorem map_heapRead_range' (l cells : Heap) :
    (List.range' l.length cells.length).map (heapRead (l ++ cells)) = cells := by
  induction cells generalizing l with
  | nil => rfl
  | cons c rest ih =>
      rw [show List.range' l.length (c :: rest).length
          = l.length :: List.range' (l.length + 1) rest.length from rfl]
      rw [List.map_cons]
      have h1 : heapRead (l ++ c :: rest) l.length = c := by
        rw [show l ++ c :: rest = (l ++ [c]) ++ rest from by simp]
        rw [heapRead_append_left (l ++ [c]) rest l.length (by simp)]
        exact heapRead_append_self l c
      have h2 : (List.range' (l.length + 1) rest.length).map (heapRead (l ++ c :: rest))
          = rest := by
        have := ih (l ++ [c])
        rw [show (l ++ [c]) ++ rest = l ++ c :: rest from by simp] at this
        rw [show (l ++ [c]).length = l.length + 1 from by simp] at this
        exact this
      rw [h1, h2]

theorem except_bind_ok {ε α β : Type} (a : α) (f : α → Except ε β) :
    (Except.ok a >>= f : Except ε β) = f a := rfl

theorem except_bind_error {ε α β : Type} (e : ε) (f : α → Except ε β) :
    (Except.error e >>= f : Except ε β) = Except.error e := rfl

theorem insertSortedE_map_comm {α β E : Type} (f : α → β) (cmp : β → β → Except E ℚ)
    (x : α) (l : List α) :
    (insertSortedE (fun a b => cmp (f a) (f b)) x l).map (List.map f)
      = insertSortedE cmp (f x) (l.map f) := by
  induction l with
  | nil => rfl
  | cons y rest ih =>
      simp only [insertSortedE, List.map_cons]
      cases hc : cmp (f x) (f y) with
      | error e =>
          simp only [except_bind_error]
          rfl
      | ok c =>
          simp only [except_bind_ok]
          by_cases hlt : c < 0
          · simp only [if_pos hlt]
            rfl
          · simp only [if_neg hlt]
            cases hrest : insertSortedE (fun a b => cmp (f a) (f b)) x rest with
            | error e =>
                rw [hrest] at ih
                have hR : insertSortedE cmp (f x) (rest.map f) = .error e := by
                  rw [← ih]
                  rfl
                simp only [hR, except_bind_error]
                rfl
            | ok l2 =>
                rw [hrest] at ih
                have hR : insertSortedE cmp (f x) (rest.map f) = .ok (l2.map f) := by
                  rw [← ih]
                  rfl
                simp only [hR, except_bind_ok]
                rfl

theorem sortListE_foldl_map_comm {α β E : Type} (f : α → β) (cmp : β → β → Except E ℚ)
    (l : List α) :
    ∀ acc : List α,
    (l.foldlM (fun acc x => insertSortedE (fun a b => cmp (f a) (f b)) x acc) acc).map
        (List.map f)
      = (l.map f).foldlM (fun acc x => insertSortedE cmp x acc) (acc.map f) := by
  induction l with
  | nil => intro acc; rfl
  | cons x rest ih =>
      intro acc
      simp only [List.foldlM_cons, List.map_cons]
      have hcomm := insertSortedE_map_comm f cmp x acc
      cases hins : insertSortedE (fun a b => cmp (f a) (f b)) x acc with
      | error e =>
          rw [hins] at hcomm
          have hR : insertSortedE cmp (f x) (acc.map f) = .error e := by
            rw [← hcomm]
            rfl
          simp only [hR, except_bind_error]
          rfl
      | ok acc2 =>
          rw [hins] at hcomm
          have hR : insertSortedE cmp (f x) (acc.map f) = .ok (acc2.map f) := by
            rw [← hcomm]
            rfl
          simp only [hR, except_bind_ok]
          exact ih acc2

theorem sortListE_map_comm {α β E : Type} (f : α → β) (cmp : β → β → Except E ℚ)
    (l : List α) :
    (sortListE (fun a b => cmp (f a) (f b)) l).map (List.map f)
      = sortListE cmp (l.map f) := by
  unfold sortListE
  have := sortListE_foldl_map_comm f cmp l []
  simpa using this

theorem insertSortedE_mem {α E : Type} (cmp : α → α → Except E ℚ) (x : α)
    (l l2 : List α) (hok : insertSortedE cmp x l = .ok l2) :
    ∀ y ∈ l2, y = x ∨ y ∈ l := by
  induction l generalizing l2 with
  | nil =>
      simp only [insertSortedE, Except.ok.injEq] at hok
      subst hok
      intro y hy
      simp only [List.mem_singleton] at hy
      exact Or.inl hy
  | cons z rest ih =>
      simp only [insertSortedE] at hok
      cases hc : cmp x z with
      | error e =>
          rw [hc, except_bind_error] at hok
          cases hok
      | ok c =>
          rw [hc, except_bind_ok] at hok
          by_cases hlt : c < 0
          · rw [if_pos hlt] at hok
            simp only [Except.ok.injEq] at hok
            subst hok
            intro y hy
            rcases List.mem_cons.mp hy with h1 | hy2
            · exact Or.inl h1
            · exact Or.inr hy2
          · rw [if_neg hlt] at hok
            cases hrest : insertSortedE cmp x rest with
            | error e =>
                rw [hrest, except_bind_error] at hok
                cases hok
            | ok l3 =>
                rw [hrest, except_bind_ok] at hok
                simp only [Except.ok.injEq] at hok
                subst hok
                intro y hy
                rcases List.mem_cons.mp hy with h1 | hy2
                · exact Or.inr (by simp [h1])
                · rcases ih l3 hrest y hy2 with h2 | h3
                  · exact Or.inl h2
                  · exact Or.inr (by simp [h3])

theorem sortListE_foldl_mem {α E : Type} (cmp : α → α → Except E ℚ) (l : List α) :
    ∀ (acc l2 : List α),
      l.foldlM (fun acc x => insertSortedE cmp x acc) acc = .ok l2 →
      ∀ y ∈ l2, y ∈ acc ∨ y ∈ l := by
  induction l with
  | nil =>
      intro acc l2 hok y hy
      simp only [List.foldlM_nil] at hok
      cases hok
      exact Or.inl hy
  | cons x rest ih =>
      intro acc l2 hok y hy
      simp only [List.foldlM_cons] at hok
      cases hins : insertSortedE cmp x acc with
      | error e =>
          rw [hins, except_bind_error] at hok
          cases hok
      | ok acc2 =>
          rw [hins, except_bind_ok] at hok
          rcases ih acc2 l2 hok y hy with h1 | h2
          · rcases insertSortedE_mem cmp x acc acc2 hins y h1 with h3 | h4
            · exact Or.inr (by simp [h3])
            · exact Or.inl h4
          · exact Or.inr (by simp [h2])

theorem sortListE_mem {α E : Type} (cmp : α → α → Except E ℚ) (l l2 : List α)
    (hok : sortListE cmp l = .ok l2) : ∀ y ∈ l2, y ∈ l := by
  intro y hy
  rcases sortListE_foldl_mem cmp l [] l2 hok y hy with h1 | h2
  · cases h1
  · exact h2

theorem setAllColumnsLoop_ok (srcCols tmpCols : List DataColumn) (srcAddr na : Nat)
    (hne : srcAddr ≠ na) (loopCols : List DataColumn) :
    ∀ (h h2 : Heap), na < h.length →
    setAllColumnsLoop srcCols tmpCols srcAddr na loopCols h = .ok h2 →
    ∃ c2, setAllColumnsPure srcCols tmpCols (heapRead h srcAddr) loopCols (heapRead h na)
        = .ok c2 ∧ h2 = heapWrite h na c2 := by
  induction loopCols with
  | nil =>
      intro h h2 hna hok
      simp only [setAllColumnsLoop, Except.ok.injEq] at hok
      subst hok
      exact ⟨heapRead h na, rfl, (heapWrite_read_self h na).symm⟩
  | cons col rest ih =>
      intro h h2 hna hok
      simp only [setAllColumnsLoop] at hok
      cases hv : rowGet srcCols (heapRead h srcAddr) col.columnName with
      | error e => rw [hv, except_bind_error] at hok; cases hok
      | ok v =>
          rw [hv, except_bind_ok] at hok
          cases hcs : cellSet tmpCols (heapRead h na) col.columnName v with
          | error e =>
              simp only [heapRowSet, hcs, except_bind_error] at hok
              cases hok
          | ok c1 =>
              simp only [heapRowSet, hcs, except_bind_ok] at hok
              have hna1 : na < (heapWrite h na c1).length := by
                rw [heapWrite_length]; exact hna
              obtain ⟨c2, hpure, hh2⟩ := ih (heapWrite h na c1) h2 hna1 hok
              rw [heapRead_write_ne h na srcAddr c1 (fun hh => hne hh.symm)] at hpure
              rw [heapRead_write_self h na c1 hna] at hpure
              refine ⟨c2, ?_, ?_⟩
              · simp only [setAllColumnsPure, hv, except_bind_ok, hcs]
                exact hpure
              · rw [hh2, heapWrite_write_self]

theorem setAllColumnsLoop_error (srcCols tmpCols : List DataColumn) (srcAddr na : Nat)
    (hne : srcAddr ≠ na) (loopCols : List DataColumn) :
    ∀ (h : Heap) (e : JsError), na < h.length →
    setAllColumnsLoop srcCols tmpCols srcAddr na loopCols h = .error e →
    setAllColumnsPure srcCols tmpCols (heapRead h srcAddr) loopCols (heapRead h na)
      = .error e := by
  induction loopCols with
  | nil =>
      intro h e hna hok
      simp only [setAllColumnsLoop] at hok
      cases hok
  | cons col rest ih =>
      intro h e hna hok
      simp only [setAllColumnsLoop] at hok
      cases hv : rowGet srcCols (heapRead h srcAddr) col.columnName with
      | error e2 =>
          rw [hv, except_bind_error] at hok
          injection hok with hok
          subst hok
          simp only [setAllColumnsPure, hv, except_bind_error]
      | ok v =>
          rw [hv, except_bind_ok] at hok
          cases hcs : cellSet tmpCols (heapRead h na) col.columnName v with
          | error e2 =>
              simp only [heapRowSet, hcs, except_bind_error] at hok
              injection hok with hok
              subst hok
              simp only [setAllColumnsPure, hv, except_bind_ok, hcs, except_bind_error]
          | ok c1 =>
              simp only [heapRowSet, hcs, except_bind_ok] at hok
              have hna1 : na < (heapWrite h na c1).length := by
                rw [heapWrite_length]; exact hna
              have hpure := ih (heapWrite h na c1) e hna1 hok
              rw [heapRead_write_ne h na srcAddr c1 (fun hh => hne hh.symm)] at hpure
              rw [heapRead_write_self h na c1 hna] at hpure
              simp only [setAllColumnsPure, hv, except_bind_ok, hcs]
              exact hpure

theorem copyRowsLoop_ok (srcCols : List DataColumn) (rows : List Nat) :
    ∀ (n : Nat) (h h2 : Heap) (tp tp2 : TableSt),
    (∀ a ∈ rows, a < n) → n ≤ h.length →
    copyRowsLoop srcCols rows h tp = .ok (h2, tp2) →
    ∃ cells, copyRowsPure srcCols tp.columns (rows.map (heapRead h)) = .ok cells ∧
      h2 = h ++ cells ∧
      tp2 = { tp with rows := tp.rows ++ List.range' h.length cells.length } := by
  induction rows with
  | nil =>
      intro n h h2 tp tp2 hval hn hok
      simp only [copyRowsLoop, Except.ok.injEq] at hok
      injection hok with h1 h2'
      subst h1
      subst h2'
      exact ⟨[], rfl, by simp, by simp⟩
  | cons a rest ih =>
      intro n h h2 tp tp2 hval hn hok
      simp only [copyRowsLoop, heapAlloc] at hok
      have hvala : a < n := hval a (by simp)
      have hna : h.length < (h ++ [newRowCell tp.columns]).length := by simp
      have hnea : a ≠ h.length := by omega
      cases hsl : setAllColumnsLoop srcCols tp.columns a h.length srcCols
          (h ++ [newRowCell tp.columns]) with
      | error e => rw [hsl, except_bind_error] at hok; cases hok
      | ok h3 =>
          rw [hsl, except_bind_ok] at hok
          obtain ⟨c2, hpure, hh3⟩ := setAllColumnsLoop_ok srcCols tp.columns a h.length
            hnea srcCols (h ++ [newRowCell tp.columns]) h3 hna hsl
          rw [heapRead_append_left h _ a (by omega)] at hpure
          rw [heapRead_append_self] at hpure
          rw [heapWrite_append_self] at hh3
          subst hh3
          have hval2 : ∀ b ∈ rest, b < n := fun b hb => hval b (by simp [hb])
          have hn2 : n ≤ (h ++ [c2]).length := by
            simp only [List.length_append, List.length_cons, List.length_nil]
            omega
          obtain ⟨cells, hpure2, hh2, htp2⟩ := ih n (h ++ [c2]) h2 _ tp2 hval2 hn2 hok
          have hmapeq : rest.map (heapRead (h ++ [c2])) = rest.map (heapRead h) :=
            List.map_eq_map_iff.mpr (fun b hb =>
              heapRead_append_left h [c2] b (by have := hval2 b hb; omega))
          rw [hmapeq] at hpure2
          refine ⟨c2 :: cells, ?_, ?_, ?_⟩
          · simp only [List.map_cons, copyRowsPure, hpure, except_bind_ok, hpure2,
              except_bind_ok]
          · rw [hh2]
            simp
          · rw [htp2]
            have hr : List.range' (h ++ [c2]).length cells.length
                = List.range' (h.length + 1) cells.length := by
              simp
            rw [hr]
            have : tp.rows ++ [h.length] ++ List.range' (h.length + 1) cells.length
                = tp.rows ++ List.range' h.length (c2 :: cells).length := by
              rw [show List.range' h.length (c2 :: cells).length
                  = h.length :: List.range' (h.length + 1) cells.length from rfl]
              simp
            rw [show ({ tp with rows := tp.rows ++ [h.length] } : TableSt).rows
                = tp.rows ++ [h.length] from rfl]
            rw [this]

theorem copyRowsLoop_error (srcCols : List DataColumn) (rows : List Nat) :
    ∀ (n : Nat) (h : Heap) (tp : TableSt) (e : JsError),
    (∀ a ∈ rows, a < n) → n ≤ h.length →
    copyRowsLoop srcCols rows h tp = .error e →
    copyRowsPure srcCols tp.columns (rows.map (heapRead h)) = .error e := by
  induction rows with
  | nil =>
      intro n h tp e hval hn hok
      simp only [copyRowsLoop] at hok
      cases hok
  | cons a rest ih =>
      intro n h tp e hval hn hok
      simp only [copyRowsLoop, heapAlloc] at hok
      have hvala : a < n := hval a (by simp)
      have hna : h.length < (h ++ [newRowCell tp.columns]).length := by simp
      have hnea : a ≠ h.length := by omega
      cases hsl : setAllColumnsLoop srcCols tp.columns a h.length srcCols
          (h ++ [newRowCell tp.columns]) with
      | error e2 =>
          rw [hsl, except_bind_error] at hok
          injection hok with hok
          subst hok
          have hpure := setAllColumnsLoop_error srcCols tp.columns a h.length hnea srcCols
            (h ++ [newRowCell tp.columns]) e2 hna hsl
          rw [heapRead_append_left h _ a (by omega)] at hpure
          rw [heapRead_append_self] at hpure
          simp only [List.map_cons, copyRowsPure, hpure, except_bind_error]
      | ok h3 =>
          rw [hsl, except_bind_ok] at hok
          obtain ⟨c2, hpure, hh3⟩ := setAllColumnsLoop_ok srcCols tp.columns a h.length
            hnea srcCols (h ++ [newRowCell tp.columns]) h3 hna hsl
          rw [heapRead_append_left h _ a (by omega)] at hpure
          rw [heapRead_append_self] at hpure
          rw [heapWrite_append_self] at hh3
          subst hh3
          have hval2 : ∀ b ∈ rest, b < n := fun b hb => hval b (by simp [hb])
          have hn2 : n ≤ (h ++ [c2]).length := by
            simp only [List.length_append, List.length_cons, List.length_nil]
            omega
          have hpure2 := ih n (h ++ [c2]) _ e hval2 hn2 hok
          have hmapeq : rest.map (heapRead (h ++ [c2])) = rest.map (heapRead h) :=
            List.map_eq_map_iff.mpr (fun b hb =>
              heapRead_append_left h [c2] b (by have := hval2 b hb; omega))
          rw [hmapeq] at hpure2
          simp only [List.map_cons, copyRowsPure, hpure, except_bind_ok, hpure2,
            except_bind_error]

theorem cloneColumnsLoop_spec (cols : List DataColumn) :
    ∀ (h : Heap) (t : TableSt), t.rows = [] →
    (∀ h1 t1, cloneColumnsLoop cols h t = .ok (h1, t1) →
      h1 = h ∧ t1.rows = [] ∧ cloneColumnsPure cols t.columns = .ok t1.columns) ∧
    (∀ e, cloneColumnsLoop cols h t = .error e →
      cloneColumnsPure cols t.columns = .error e) := by
  induction cols with
  | nil =>
      intro h t ht
      constructor
      · intro h1 t1 hok
        simp only [cloneColumnsLoop, Except.ok.injEq] at hok
        injection hok with e1 e2
        subst e1
        subst e2
        exact ⟨rfl, ht, rfl⟩
      · intro e hok
        simp only [cloneColumnsLoop] at hok
        cases hok
  | cons col rest ih =>
      intro h t ht
      constructor
      · intro h1 t1 hok
        simp only [cloneColumnsLoop] at hok
        cases hc : containsColumn t.columns (cloneColumn col).columnName with
        | true =>
            simp only [columnsAdd, hc, if_true] at hok
            cases hok
        | false =>
            simp only [columnsAdd, hc, Bool.false_eq_true, if_false, ht,
              List.foldl_nil] at hok
            obtain ⟨hh1, ht1, hcols⟩ := (ih h _ (by rfl)).1 h1 t1 hok
            refine ⟨hh1, ht1, ?_⟩
            simp only [cloneColumnsPure, columnsAddPure, hc, Bool.false_eq_true, if_false]
            exact hcols
      · intro e hok
        simp only [cloneColumnsLoop] at hok
        cases hc : containsColumn t.columns (cloneColumn col).columnName with
        | true =>
            simp only [columnsAdd, hc, if_true] at hok
            injection hok with hok
            subst hok
            simp only [cloneColumnsPure, columnsAddPure, hc, if_true]
        | false =>
            simp only [columnsAdd, hc, Bool.false_eq_true, if_false, ht,
              List.foldl_nil] at hok
            have := (ih h _ (by rfl)).2 e hok
            simp only [cloneColumnsPure, columnsAddPure, hc, Bool.false_eq_true, if_false]
            exact this

theorem cloneRowsLoop_ext (rows : List Nat) :
    ∀ (h : Heap) (t : TableSt),
    ∃ g, (cloneRowsLoop rows h t).1 = h ++ g ∧
      (cloneRowsLoop rows h t).2.columns = t.columns := by
  induction rows with
  | nil => intro h t; exact ⟨[], by simp [cloneRowsLoop], rfl⟩
  | cons a rest ih =>
      intro h t
      simp only [cloneRowsLoop, heapAlloc]
      obtain ⟨g, hg, hc⟩ := ih (h ++ [cloneRowCell t.columns (heapRead h a)])
        { t with rows := t.rows ++ [h.length] }
      exact ⟨cloneRowCell t.columns (heapRead h a) :: g, by rw [hg]; simp, hc⟩

theorem cloneT_ok (h : Heap) (t : TableSt) (h1 : Heap) (t1 : TableSt)
    (hok : cloneT h t = .ok (h1, t1)) :
    ∃ g, h1 = h ++ g ∧ cloneColumnsPure t.columns [] = .ok t1.columns := by
  unfold cloneT at hok
  cases hcl : cloneColumnsLoop t.columns h (newDataTable t.tableName) with
  | error e => rw [hcl] at hok; cases hok
  | ok r =>
      rw [hcl] at hok
      obtain ⟨hh, hrows, hcols⟩ := (cloneColumnsLoop_spec t.columns h
        (newDataTable t.tableName) rfl).1 r.1 r.2 (by rw [hcl])
      obtain ⟨g, hg, hc⟩ := cloneRowsLoop_ext t.rows r.1 r.2
      simp only [Except.ok.injEq] at hok
      injection hok with e1 e2
      subst e1
      subst e2
      refine ⟨g, ?_, ?_⟩
      · rw [hg, hh]
      · rw [show ({ (cloneRowsLoop t.rows r.1 r.2).2 with
            caseSensitive := t.caseSensitive } : TableSt).columns
            = (cloneRowsLoop t.rows r.1 r.2).2.columns from rfl, hc]
        exact hcols

theorem cloneT_error (h : Heap) (t : TableSt) (e : JsError)
    (herr : cloneT h t = .error e) :
    cloneColumnsPure t.columns [] = .error e := by
  unfold cloneT at herr
  cases hcl : cloneColumnsLoop t.columns h (newDataTable t.tableName) with
  | error e2 =>
      rw [hcl] at herr
      injection herr with herr
      subst herr
      exact (cloneColumnsLoop_spec t.columns h (newDataTable t.tableName) rfl).2 e2 hcl
  | ok r =>
      rw [hcl] at herr
      cases herr

theorem cloneTableWithRows_ok (h : Heap) (t : TableSt) (rowAddrs : List Nat)
    (h2 : Heap) (tp : TableSt) (hval : ∀ a ∈ rowAddrs, a < h.length)
    (hok : cloneTableWithRows h t rowAddrs = .ok (h2, tp)) :
    ∃ g tmpCols cells,
      cloneColumnsPure t.columns [] = .ok tmpCols ∧
      copyRowsPure t.columns tmpCols (rowAddrs.map (heapRead h)) = .ok cells ∧
      h2 = (h ++ g) ++ cells ∧ tp.columns = tmpCols ∧
      tp.rows = List.range' (h ++ g).length cells.length := by
  unfold cloneTableWithRows at hok
  cases hcl : cloneT h t with
  | error e => rw [hcl] at hok; cases hok
  | ok r =>
      rw [hcl] at hok
      obtain ⟨g, hg, hcols⟩ := cloneT_ok h t r.1 r.2 (by rw [hcl])
      obtain ⟨cells, hpure, hh2, htp⟩ := copyRowsLoop_ok t.columns rowAddrs h.length
        r.1 h2 (rowsClear r.2) tp hval (by rw [hg]; simp) hok
      have hmapeq : rowAddrs.map (heapRead r.1) = rowAddrs.map (heapRead h) :=
        List.map_eq_map_iff.mpr (fun b hb => by
          rw [hg]
          exact heapRead_append_left h g b (hval b hb))
      rw [hmapeq] at hpure
      refine ⟨g, r.2.columns, cells, hcols, hpure, ?_, ?_, ?_⟩
      · rw [hh2, hg]
      · rw [htp]; simp [rowsClear]
      · rw [htp, hg]
        simp [rowsClear]

theorem cloneTableWithRows_error (h : Heap) (t : TableSt) (rowAddrs : List Nat)
    (e : JsError) (hval : ∀ a ∈ rowAddrs, a < h.length)
    (herr : cloneTableWithRows h t rowAddrs = .error e) :
    cloneColumnsPure t.columns [] = .error e ∨
      ∃ tmpCols, cloneColumnsPure t.columns [] = .ok tmpCols ∧
        copyRowsPure t.columns tmpCols (rowAddrs.map (heapRead h)) = .error e := by
  unfold cloneTableWithRows at herr
  cases hcl : cloneT h t with
  | error e2 =>
      rw [hcl] at herr
      injection herr with herr
      subst herr
      exact Or.inl (cloneT_error h t e2 hcl)
  | ok r =>
      rw [hcl] at herr
      obtain ⟨g, hg, hcols⟩ := cloneT_ok h t r.1 r.2 (by rw [hcl])
      have hpure := copyRowsLoop_error t.columns rowAddrs h.length r.1 (rowsClear r.2) e
        hval (by rw [hg]; simp) herr
      have hmapeq : rowAddrs.map (heapRead r.1) = rowAddrs.map (heapRead h) :=
        List.map_eq_map_iff.mpr (fun b hb => by
          rw [hg]
          exact heapRead_append_left h g b (hval b hb))
      rw [hmapeq] at hpure
      exact Or.inr ⟨r.2.columns, hcols, hpure⟩

theorem getRowsFilterStage_spec (h : Heap) (v : ViewSt) (t : TableSt) :
    ∃ rows, getRowsFilterStage h v t = .ok rows ∧
      (∀ a ∈ rows, a ∈ t.rows) ∧
      rows.map (heapRead h) = filterCellsPure v.rowFilter (t.rows.map (heapRead h)) := by
  cases hf : v.rowFilter with
  | noFilter =>
      exact ⟨t.rows, by simp [getRowsFilterStage, hf], fun a ha => ha,
        by simp [filterCellsPure]⟩
  | fnFilter f =>
      refine ⟨t.rows.filter (fun a => f (heapRead h a)),
        by simp [getRowsFilterStage, hf], ?_, ?_⟩
      · intro a ha
        exact List.mem_of_mem_filter ha
      · rw [map_heapRead_filter]
        rfl
  | criteriaFilter cs =>
      refine ⟨t.rows.filter (fun a =>
          cs.all (fun kc => matchCriterion ((heapRead h a).values.read kc.1) kc.2)),
        by simp [getRowsFilterStage, hf, findRowsT], ?_, ?_⟩
      · intro a ha
        exact List.mem_of_mem_filter ha
      · rw [map_heapRead_filter h t.rows
          (fun c => cs.all (fun kc => matchCriterion (c.values.read kc.1) kc.2))]
        rfl

theorem getRowsSortStage_vals (h : Heap) (t : TableSt) (v : ViewSt) (rows : List Nat)
    (hvalr : ∀ a ∈ rows, a < h.length) :
    (getRowsSortStage h t v rows).map (fun hr => hr.2.map (fun a => (heapRead hr.1 a).values))
      = getRowsSpecSort t.columns v (rows.map (heapRead h)) := by
  cases hs : v.sort with
  | noSort =>
      simp only [getRowsSortStage, hs, getRowsSpecSort, Except.map, List.map_map]
      rfl
  | colSort columnName =>
      simp only [getRowsSortStage, hs, getRowsSpecSort]
      cases hct : cloneTableWithRows h t rows with
      | error e =>
          rw [except_bind_error]
          rcases cloneTableWithRows_error h t rows e hvalr hct with hcc | ⟨tmpCols, hcc, hcp⟩
          · rw [hcc, except_bind_error]
            rfl
          · rw [hcc, except_bind_ok, hcp, except_bind_error]
            rfl
      | ok p =>
          obtain ⟨h₁, temp⟩ := p
          obtain ⟨g, tmpCols, cells, hcc, hcp, hh, hcols, hrows⟩ :=
            cloneTableWithRows_ok h t rows h₁ temp hvalr hct
          simp only [except_bind_ok]
          have hts : tableSortByColumn h₁ temp columnName v.sortOrder
              = (sortListE (fun a b => columnComparator tmpCols columnName v.sortOrder
                  (heapRead h₁ a) (heapRead h₁ b)) temp.rows).map
                (fun sorted => { temp with rows := sorted }) := by
            unfold tableSortByColumn
            rw [hcols]
          have hmap : temp.rows.map (heapRead h₁) = cells := by
            rw [hrows, hh]
            exact map_heapRead_range' (h ++ g) cells
          have hcomm := sortListE_map_comm (heapRead h₁)
            (fun a b => columnComparator tmpCols columnName v.sortOrder a b) temp.rows
          rw [hmap] at hcomm
          rw [hts]
          cases hsl : sortListE (fun a b => columnComparator tmpCols columnName v.sortOrder
              (heapRead h₁ a) (heapRead h₁ b)) temp.rows with
          | error e =>
              rw [hsl] at hcomm
              have hcell : sortListE
                  (fun a b => columnComparator tmpCols columnName v.sortOrder a b) cells
                  = .error e := by
                rw [← hcomm]
                rfl
              rw [hcc, except_bind_ok, hcp, except_bind_ok, hcell, except_bind_error]
              rfl
          | ok sorted =>
              rw [hsl] at hcomm
              have hcell : sortListE
                  (fun a b => columnComparator tmpCols columnName v.sortOrder a b) cells
                  = .ok (sorted.map (heapRead h₁)) := by
                rw [← hcomm]
                rfl
              rw [hcc, except_bind_ok, hcp, except_bind_ok, hcell, except_bind_ok]
              simp only [Except.map, except_bind_ok, List.map_map]
              rfl
  | fnSort expr =>
      simp only [getRowsSortStage, hs, getRowsSpecSort]
      cases hct : cloneTableWithRows h t rows with
      | error e =>
          rw [except_bind_error]
          rcases cloneTableWithRows_error h t rows e hvalr hct with hcc | ⟨tmpCols, hcc, hcp⟩
          · rw [hcc, except_bind_error]
            rfl
          · rw [hcc, except_bind_ok, hcp, except_bind_error]
            rfl
      | ok p =>
          obtain ⟨h₁, temp⟩ := p
          obtain ⟨g, tmpCols, cells, hcc, hcp, hh, hcols, hrows⟩ :=
            cloneTableWithRows_ok h t rows h₁ temp hvalr hct
          simp only [except_bind_ok]
          have hts : tableSortBy h₁ temp expr
              = (sortListE (fun a b => Except.ok (sortByComparator expr
                  (heapRead h₁ a) (heapRead h₁ b))) temp.rows).map
                (fun sorted => { temp with rows := sorted }) := by
            unfold tableSortBy
            rfl
          have hmap : temp.rows.map (heapRead h₁) = cells := by
            rw [hrows, hh]
            exact map_heapRead_range' (h ++ g) cells
          have hcomm := sortListE_map_comm (heapRead h₁)
            (fun a b => (Except.ok (sortByComparator expr a b) : Except JsError ℚ)) temp.rows
          rw [hmap] at hcomm
          rw [hts]
          cases hsl : sortListE (fun a b => (Except.ok (sortByComparator expr
              (heapRead h₁ a) (heapRead h₁ b)) : Except JsError ℚ)) temp.rows with
          | error e =>
              rw [hsl] at hcomm
              have hcell : sortListE
                  (fun a b => (Except.ok (sortByComparator expr a b) : Except JsError ℚ)) cells
                  = .error e := by
                rw [← hcomm]
                rfl
              rw [hcc, except_bind_ok, hcp, except_bind_ok, hcell, except_bind_error]
              rfl
          | ok sorted =>
              rw [hsl] at hcomm
              have hcell : sortListE
                  (fun a b => (Except.ok (sortByComparator expr a b) : Except JsError ℚ)) cells
                  = .ok (sorted.map (heapRead h₁)) := by
                rw [← hcomm]
                rfl
              rw [hcc, except_bind_ok, hcp, except_bind_ok, hcell, except_bind_ok]
              simp only [Except.map, except_bind_ok, List.map_map]
              rfl

theorem getRowsVals_spec (h : Heap) (v : ViewSt) (t : TableSt)
    (hval : ∀ a ∈ t.rows, a < h.length) :
    getRowsVals h v t = getRowsSpec t.columns v (t.rows.map (heapRead h)) := by
  obtain ⟨rows, hstage, hsub, hcells⟩ := getRowsFilterStage_spec h v t
  have hvalr : ∀ a ∈ rows, a < h.length := fun a ha => hval a (hsub a ha)
  unfold getRowsVals getRowsT getRowsSpec
  rw [hstage]
  rw [show ((Except.ok rows >>= getRowsSortStage h t v : Except JsError (Heap × List Nat)))
      = getRowsSortStage h t v rows from rfl]
  rw [← hcells]
  exact getRowsSortStage_vals h t v rows hvalr

theorem getRowsT_extends (h : Heap) (v : ViewSt) (t : TableSt) (h₁ : Heap)
    (addrs : List Nat) (hval : ∀ a ∈ t.rows, a < h.length)
    (hok : getRowsT h v t = .ok (h₁, addrs)) : ∃ g, h₁ = h ++ g := by
  obtain ⟨rows, hstage, hsub, hcells⟩ := getRowsFilterStage_spec h v t
  have hvalr : ∀ a ∈ rows, a < h.length := fun a ha => hval a (hsub a ha)
  unfold getRowsT at hok
  rw [hstage] at hok
  rw [show ((Except.ok rows >>= getRowsSortStage h t v : Except JsError (Heap × List Nat)))
      = getRowsSortStage h t v rows from rfl] at hok
  cases hs : v.sort with
  | noSort =>
      simp only [getRowsSortStage, hs, Except.ok.injEq, Prod.mk.injEq] at hok
      exact ⟨[], by rw [← hok.1]; simp⟩
  | colSort columnName =>
      simp only [getRowsSortStage, hs] at hok
      cases hct : cloneTableWithRows h t rows with
      | error e => rw [hct, except_bind_error] at hok; cases hok
      | ok p =>
          obtain ⟨h₂, temp⟩ := p
          rw [hct] at hok
          simp only [except_bind_ok] at hok
          obtain ⟨g, tmpCols, cells, hcc, hcp, hh, hcols, hrows⟩ :=
            cloneTableWithRows_ok h t rows h₂ temp hvalr hct
          cases hts : tableSortByColumn h₂ temp columnName v.sortOrder with
          | error e => rw [hts, except_bind_error] at hok; cases hok
          | ok temp2 =>
              rw [hts, except_bind_ok] at hok
              simp only [pure, Except.pure, Except.ok.injEq, Prod.mk.injEq] at hok
              refine ⟨g ++ cells, ?_⟩
              rw [← hok.1, hh]
              simp
  | fnSort expr =>
      simp only [getRowsSortStage, hs] at hok
      cases hct : cloneTableWithRows h t rows with
      | error e => rw [hct, except_bind_error] at hok; cases hok
      | ok p =>
          obtain ⟨h₂, temp⟩ := p
          rw [hct] at hok
          simp only [except_bind_ok] at hok
          obtain ⟨g, tmpCols, cells, hcc, hcp, hh, hcols, hrows⟩ :=
            cloneTableWithRows_ok h t rows h₂ temp hvalr hct
          cases hts : tableSortBy h₂ temp expr with
          | error e => rw [hts, except_bind_error] at hok; cases hok
          | ok temp2 =>
              rw [hts, except_bind_ok] at hok
              simp only [pure, Except.pure, Except.ok.injEq, Prod.mk.injEq] at hok
              refine ⟨g ++ cells, ?_⟩
              rw [← hok.1, hh]
              simp

theorem setAllColumnsPure_state (srcCols tmpCols : List DataColumn) (src : RowCell)
    (loopCols : List DataColumn) :
    ∀ c0 c, setAllColumnsPure srcCols tmpCols src loopCols c0 = .ok c →
      c.rowState = .MODIFIED ∨ (loopCols = [] ∧ c = c0) := by
  induction loopCols with
  | nil =>
      intro c0 c hok
      simp only [setAllColumnsPure, Except.ok.injEq] at hok
      exact Or.inr ⟨rfl, hok.symm⟩
  | cons col rest ih =>
      intro c0 c hok
      simp only [setAllColumnsPure] at hok
      cases hv : rowGet srcCols src col.columnName with
      | error e => rw [hv, except_bind_error] at hok; cases hok
      | ok v =>
          rw [hv, except_bind_ok] at hok
          cases hcs : cellSet tmpCols c0 col.columnName v with
          | error e => rw [hcs, except_bind_error] at hok; cases hok
          | ok c1 =>
              rw [hcs, except_bind_ok] at hok
              rcases ih c1 c hok with hm | ⟨hrest, hc⟩
              · exact Or.inl hm
              · subst hc
                obtain ⟨-, w, -, hst⟩ := cellSet_ok_shape tmpCols c0 col.columnName v c hcs
                exact Or.inl hst

theorem copyRowsPure_state (srcCols tmpCols : List DataColumn) (srcs : List RowCell)
    (hcols : srcCols ≠ []) :
    ∀ cells, copyRowsPure srcCols tmpCols srcs = .ok cells →
      ∀ c ∈ cells, c.rowState = .MODIFIED := by
  induction srcs with
  | nil =>
      intro cells hok c hc
      simp only [copyRowsPure, Except.ok.injEq] at hok
      subst hok
      cases hc
  | cons src rest ih =>
      intro cells hok c hc
      simp only [copyRowsPure] at hok
      cases hsa : setAllColumnsPure srcCols tmpCols src srcCols (newRowCell tmpCols) with
      | error e => rw [hsa, except_bind_error] at hok; cases hok
      | ok c1 =>
          rw [hsa, except_bind_ok] at hok
          cases hcr : copyRowsPure srcCols tmpCols rest with
          | error e => rw [hcr, except_bind_error] at hok; cases hok
          | ok cs =>
              rw [hcr, except_bind_ok] at hok
              injection hok with hok
              subst hok
              rcases List.mem_cons.mp hc with hc1 | hc2
              · subst hc1
                rcases setAllColumnsPure_state srcCols tmpCols src srcCols
                    (newRowCell tmpCols) c hsa with hm | ⟨h0, -⟩
                · exact hm
                · exact absurd h0 hcols
              · exact ih cs hcr c hc2

theorem getRowsT_sorted_addrs (h : Heap) (v : ViewSt) (t : TableSt) (h₂ : Heap)
    (addrs : List Nat) (hval : ∀ a ∈ t.rows, a < h.length)
    (hsort : v.sort ≠ .noSort) (hok : getRowsT h v t = .ok (h₂, addrs)) :
    (∀ a ∈ addrs, h.length ≤ a ∧ a < h₂.length) ∧
    (∀ b, b < h.length → heapRead h₂ b = heapRead h b) ∧
    (t.columns ≠ [] → ∀ a ∈ addrs, (heapRead h₂ a).rowState = .MODIFIED) := by
  obtain ⟨rows, hstage, hsub, hcells⟩ := getRowsFilterStage_spec h v t
  have hvalr : ∀ a ∈ rows, a < h.length := fun a ha => hval a (hsub a ha)
  unfold getRowsT at hok
  rw [hstage] at hok
  rw [show ((Except.ok rows >>= getRowsSortStage h t v : Except JsError (Heap × List Nat)))
      = getRowsSortStage h t v rows from rfl] at hok
  cases hs : v.sort with
  | noSort => exact absurd hs hsort
  | colSort columnName =>
      simp only [getRowsSortStage, hs] at hok
      cases hct : cloneTableWithRows h t rows with
      | error e => rw [hct, except_bind_error] at hok; cases hok
      | ok p =>
          obtain ⟨h₃, temp⟩ := p
          rw [hct] at hok
          simp only [except_bind_ok] at hok
          obtain ⟨g, tmpCols, cells, hcc, hcp, hh, hcols, hrows⟩ :=
            cloneTableWithRows_ok h t rows h₃ temp hvalr hct
          cases hts : tableSortByColumn h₃ temp columnName v.sortOrder with
          | error e => rw [hts, except_bind_error] at hok; cases hok
          | ok temp2 =>
              rw [hts, except_bind_ok] at hok
              simp only [pure, Except.pure, Except.ok.injEq, Prod.mk.injEq] at hok
              obtain ⟨hh1, haddrs⟩ := hok
              subst hh1
              have hmem : ∀ a ∈ addrs, a ∈ temp.rows := by
                intro a ha
                rw [← haddrs] at ha
                unfold tableSortByColumn at hts
                cases hsl : sortListE (fun a b => columnComparator temp.columns columnName
                    v.sortOrder (heapRead h₃ a) (heapRead h₃ b)) temp.rows with
                | error e => rw [hsl] at hts; cases hts
                | ok sorted =>
                    rw [hsl] at hts
                    injection hts with hts
                    have hrows2 : temp2.rows = sorted := by rw [← hts]
                    rw [hrows2] at ha
                    exact sortListE_mem _ temp.rows sorted hsl a ha
              have hlen : h₃.length = (h ++ g).length + cells.length := by
                rw [hh]
                simp
                omega
              refine ⟨?_, ?_, ?_⟩
              · intro a ha
                have := hmem a ha
                rw [hrows] at this
                have hr := List.mem_range'_1.mp this
                constructor
                · calc h.length ≤ (h ++ g).length := by simp
                    _ ≤ a := hr.1
                · omega
              · intro b hb
                rw [hh, List.append_assoc]
                exact heapRead_append_left h (g ++ cells) b hb
              · intro hc a ha
                have hmem2 := hmem a ha
                rw [hrows] at hmem2
                have hcell : heapRead h₃ a ∈ cells := by
                  have := List.mem_map_of_mem (heapRead h₃) hmem2
                  rw [hh] at this
                  rw [map_heapRead_range' (h ++ g) cells] at this
                  rw [← hh] at this
                  exact this
                exact copyRowsPure_state t.columns tmpCols (rows.map (heapRead h)) hc
                  cells hcp (heapRead h₃ a) hcell
  | fnSort expr =>
      simp only [getRowsSortStage, hs] at hok
      cases hct : cloneTableWithRows h t rows with
      | error e => rw [hct, except_bind_error] at hok; cases hok
      | ok p =>
          obtain ⟨h₃, temp⟩ := p
          rw [hct] at hok
          simp only [except_bind_ok] at hok
          obtain ⟨g, tmpCols, cells, hcc, hcp, hh, hcols, hrows⟩ :=
            cloneTableWithRows_ok h t rows h₃ temp hvalr hct
          cases hts : tableSortBy h₃ temp expr with
          | error e => rw [hts, except_bind_error] at hok; cases hok
          | ok temp2 =>
              rw [hts, except_bind_ok] at hok
              simp only [pure, Except.pure, Except.ok.injEq, Prod.mk.injEq] at hok
              obtain ⟨hh1, haddrs⟩ := hok
              subst hh1
              have hmem : ∀ a ∈ addrs, a ∈ temp.rows := by
                intro a ha
                rw [← haddrs] at ha
                unfold tableSortBy at hts
                cases hsl : sortListE (fun a b => (Except.ok (sortByComparator expr
                    (heapRead h₃ a) (heapRead h₃ b)) : Except JsError ℚ)) temp.rows with
                | error e => rw [hsl] at hts; cases hts
                | ok sorted =>
                    rw [hsl] at hts
                    injection hts with hts
                    have hrows2 : temp2.rows = sorted := by rw [← hts]
                    rw [hrows2] at ha
                    exact sortListE_mem _ temp.rows sorted hsl a ha
              have hlen : h₃.length = (h ++ g).length + cells.length := by
                rw [hh]
                simp
                omega
              refine ⟨?_, ?_, ?_⟩
              · intro a ha
                have := hmem a ha
                rw [hrows] at this
                have hr := List.mem_range'_1.mp this
                constructor
                · calc h.length ≤ (h ++ g).length := by simp
                    _ ≤ a := hr.1
                · omega
              · intro b hb
                rw [hh, List.append_assoc]
                exact heapRead_append_left h (g ++ cells) b hb
              · intro hc a ha
                have hmem2 := hmem a ha
                rw [hrows] at hmem2
                have hcell : heapRead h₃ a ∈ cells := by
                  have := List.mem_map_of_mem (heapRead h₃) hmem2
                  rw [hh] at this
                  rw [map_heapRead_range' (h ++ g) cells] at this
                  rw [← hh] at this
                  exact this
                exact copyRowsPure_state t.columns tmpCols (rows.map (heapRead h)) hc
                  cells hcp (heapRead h₃ a) hcell

/-- C7: `DataView.getRows` never caches.  Its result is a function of the
view settings and the live snapshot of the backing table's row cells alone
(`getRowsSpec`), so any mutation of the backing table is reflected by the
next call; and a second call made after a first successful call (whose only
effect on the heap is allocating temporary rows) returns the same value
sequence in the same order. -/
theorem claim_C7 (h : Heap) (v : ViewSt) (t : TableSt)
    (hval : ∀ a ∈ t.rows, a < h.length) :
    getRowsVals h v t = getRowsSpec t.columns v (t.rows.map (heapRead h)) ∧
    ∀ h₁ addrs, getRowsT h v t = .ok (h₁, addrs) →
      getRowsVals h₁ v t = getRowsVals h v t := by
  constructor
  · exact getRowsVals_spec h v t hval
  · intro h₁ addrs hok
    obtain ⟨g, hg⟩ := getRowsT_extends h v t h₁ addrs hval hok
    subst hg
    have hval2 : ∀ a ∈ t.rows, a < (h ++ g).length := by
      intro a ha
      have := hval a ha
      simp only [List.length_append]
      omega
    rw [getRowsVals_spec h v t hval, getRowsVals_spec (h ++ g) v t hval2]
    have hmapeq : t.rows.map (heapRead (h ++ g)) = t.rows.map (heapRead h) :=
      List.map_eq_map_iff.mpr (fun a ha => heapRead_append_left h g a (hval a ha))
    rw [hmapeq]

/-- C7 witness: the one-column one-row table under the default (no filter,
no sort) view. -/
theorem claim_C7_witness :
    (∀ a ∈ tableA.rows, a < ([cellA1] : Heap).length) ∧
    (getRowsVals [cellA1] {} tableA
        = getRowsSpec tableA.columns {} (tableA.rows.map (heapRead [cellA1])) ∧
      ∀ h₁ addrs, getRowsT [cellA1] {} tableA = .ok (h₁, addrs) →
        getRowsVals h₁ {} tableA = getRowsVals [cellA1] {} tableA) :=
  ⟨by decide, claim_C7 [cellA1] {} tableA (by decide)⟩

/-- C10 counterexample: on a zero-column backing table, a sorted view's
`getRows` returns a temporary row whose state is still `ADDED`, not
`MODIFIED` — the clone loop performs one `set` per column, so with no
columns the fresh row never transitions.  This refutes the claim's
"state is Modified regardless" for this edge case. -/
theorem claim_C10_counterexample :
    ∃ h₁ addrs, getRowsT [cellEmpty] viewSortedE tableE = .ok (h₁, addrs) ∧
      addrs.map (fun a => (heapRead h₁ a).rowState) = [.ADDED] ∧
      DataRowState.ADDED ≠ DataRowState.MODIFIED :=
  ⟨_, _, rfl, rfl, by decide⟩

/-- C10 amended: with no sort set, `getRows` returns the backing table's own
row objects on the unchanged heap; with a sort set, every returned row is a
freshly allocated object of the temporary cloned table (its address lies
beyond the original heap, so it is none of the backing rows), mutating a
returned row leaves every backing row's cell unchanged, and — provided the
table has at least one column — every returned row's state is `MODIFIED`
regardless of the source rows' state. -/
theorem claim_C10_amended (h : Heap) (v : ViewSt) (t : TableSt)
    (hval : ∀ a ∈ t.rows, a < h.length) :
    (v.sort = .noSort →
      ∃ rows, getRowsT h v t = .ok (h, rows) ∧ ∀ a ∈ rows, a ∈ t.rows) ∧
    (v.sort ≠ .noSort → ∀ h₁ addrs, getRowsT h v t = .ok (h₁, addrs) →
      (∀ a ∈ addrs, a ∉ t.rows ∧ h.length ≤ a) ∧
      (∀ a ∈ addrs, ∀ c, ∀ b ∈ t.rows, heapRead (heapWrite h₁ a c) b = heapRead h b) ∧
      (t.columns ≠ [] → ∀ a ∈ addrs, (heapRead h₁ a).rowState = .MODIFIED)) := by
  obtain ⟨rows, hstage, hsub, hcells⟩ := getRowsFilterStage_spec h v t
  constructor
  · intro hns
    refine ⟨rows, ?_, hsub⟩
    unfold getRowsT
    rw [hstage]
    rw [show ((Except.ok rows >>= getRowsSortStage h t v : Except JsError (Heap × List Nat)))
        = getRowsSortStage h t v rows from rfl]
    simp only [getRowsSortStage, hns]
  · intro hsort h₁ addrs hok
    obtain ⟨hfresh, hback, hmod⟩ := getRowsT_sorted_addrs h v t h₁ addrs hval hsort hok
    refine ⟨?_, ?_, hmod⟩
    · intro a ha
      have hf := hfresh a ha
      refine ⟨?_, hf.1⟩
      intro hmem
      have := hval a hmem
      omega
    · intro a ha c b hb
      have hf := hfresh a ha
      have hblt := hval b hb
      have hne : a ≠ b := by omega
      rw [heapRead_write_ne h₁ a b c hne]
      exact hback b hblt

/-- C10 amended witness: the one-column one-row table under a column-sorted
view. -/
theorem claim_C10_amended_witness :
    (∀ a ∈ tableA.rows, a < ([cellA1] : Heap).length) ∧
    (((({ sort := .colSort "a" } : ViewSt).sort = .noSort →
      ∃ rows, getRowsT [cellA1] { sort := .colSort "a" } tableA = .ok ([cellA1], rows) ∧
        ∀ a ∈ rows, a ∈ tableA.rows) ∧
    (({ sort := .colSort "a" } : ViewSt).sort ≠ .noSort →
      ∀ h₁ addrs, getRowsT [cellA1] { sort := .colSort "a" } tableA = .ok (h₁, addrs) →
      (∀ a ∈ addrs, a ∉ tableA.rows ∧ ([cellA1] : Heap).length ≤ a) ∧
      (∀ a ∈ addrs, ∀ c, ∀ b ∈ tableA.rows,
        heapRead (heapWrite h₁ a c) b = heapRead [cellA1] b) ∧
      (tableA.columns ≠ [] → ∀ a ∈ addrs, (heapRead h₁ a).rowState = .MODIFIED)))) :=
  ⟨by decide, claim_C10_amended [cellA1] { sort := .colSort "a" } tableA (by decide)⟩
